import Mathlib

/-!
Verification of the content sanitation and section-based image-insertion
pipeline of the Wordpress-Publicator repository
(src/html_cleaner.py and src/image_api.py).

Python strings are modelled as `List Char`.  Python's `re` operations that the
source applies (all with fixed, concrete patterns) are implemented character by
character with the exact leftmost, non-rescanning semantics of `re.sub` /
`re.split` / `re.match`.  BeautifulSoup's parse tree is modelled by the `Node`
type below; parsing itself is third-party library behaviour, so every function
that the source runs on a freshly parsed soup takes the parse result (or a
`parse` function) as an explicit argument.  Concrete parse trees supplied to
concrete inputs are documented where they are used.
-/

/-- Python `str` modelled as a list of characters. -/
abbrev Str := List Char

/-- Coercion from Lean string literals to the `Str` model. -/
def chars (s : String) : Str := s.data

/-- Python's `\s` character class (ASCII part): space, tab, newline, carriage
return, vertical tab, form feed.  (Python's `re` on `str` also matches some
Unicode whitespace; the repository only ever manipulates ASCII whitespace.) -/
def isPyWs (c : Char) : Bool :=
  c = ' ' || c = '\t' || c = '\n' || c = '\r' || c = Char.ofNat 11 || c = Char.ofNat 12

/-- Python `str.strip()` (whitespace from both ends). -/
def pystrip (l : Str) : Str :=
  ((l.dropWhile isPyWs).reverse.dropWhile isPyWs).reverse

/-- Python `\w` character class (ASCII part): letters, digits, underscore. -/
def isWordChar (c : Char) : Bool :=
  ('a' ≤ c && c ≤ 'z') || ('A' ≤ c && c ≤ 'Z') || ('0' ≤ c && c ≤ '9') || c = '_'

/-- ASCII alphabetic character. -/
def isAsciiAlpha (c : Char) : Bool :=
  ('a' ≤ c && c ≤ 'z') || ('A' ≤ c && c ≤ 'Z')

/-- A node of the BeautifulSoup parse tree (spec §3 "Document"): an element
with tag name, attribute mapping (in document order) and children, or a text
run (`NavigableString`). -/
inductive Node where
  | text (s : String)
  | elem (tag : String) (attrs : List (String × String)) (children : List Node)

/-- The children of the soup root (`BeautifulSoup` object). -/
abbrev Doc := List Node

/-- HTML void elements, which BeautifulSoup's serializer renders as
`<tag .../>` with no closing tag. -/
def voidTags : List String :=
  ["area", "base", "br", "col", "embed", "hr", "img", "input", "link",
   "meta", "param", "source", "track", "wbr"]

/-- Entity escaping that BeautifulSoup's default (minimal) formatter applies to
text runs: `&`, `<`, `>`. -/
def escTextChar (c : Char) : Str :=
  if c = '&' then chars ("&amp;")
  else if c = '<' then chars ("&lt;")
  else if c = '>' then chars ("&gt;")
  else [c]

/-- Escaping for attribute values (additionally escapes the quote). -/
def escAttrChar (c : Char) : Str :=
  if c = Char.ofNat 34 then chars ("&quot;")
  else escTextChar c

def escText (s : String) : Str := s.data.flatMap escTextChar

def escAttr (s : String) : Str := s.data.flatMap escAttrChar

/-- One serialized attribute: ` name="value"`. -/
def serializeAttr (a : String × String) : Str :=
  [' '] ++ a.1.data ++ ['='] ++ [Char.ofNat 34] ++ escAttr a.2 ++ [Char.ofNat 34]

mutual

/-- `str(soup)`: BeautifulSoup's serialization of a node. -/
def serializeNode : Node → Str
  | Node.text s => escText s
  | Node.elem tag attrs children =>
      let opening := ['<'] ++ tag.data ++ (attrs.map serializeAttr).flatten
      if tag ∈ voidTags then
        opening ++ ['/', '>']
      else
        opening ++ ['>'] ++ serializeList children ++ ['<', '/'] ++ tag.data ++ ['>']

def serializeList : List Node → Str
  | [] => []
  | n :: rest => serializeNode n ++ serializeList rest

end

/-- `str(soup)` for the whole document. -/
def serializeDoc (d : Doc) : Str := serializeList d

/-! ## HTMLCleaner (src/html_cleaner.py) -/

/-- `HTMLCleaner.allowed_tags` (html_cleaner.py:18-27). -/
def hc_allowed_tags : List String :=
  ["h1", "h2", "h3", "h4", "h5", "h6",
   "p", "br", "hr",
   "strong", "b", "em", "i", "u",
   "ul", "ol", "li",
   "a", "img",
   "blockquote", "pre", "code",
   "table", "thead", "tbody", "tr", "th", "td",
   "div", "span"]

/-- `HTMLCleaner.allowed_attributes` (html_cleaner.py:30-34). -/
def hc_allowed_attributes (tag : String) : List String :=
  if tag = "a" then ["href", "title"]
  else if tag = "img" then ["src", "alt", "title", "width", "height"]
  else if tag = "blockquote" then ["cite"]
  else []

/-- `HTMLCleaner.forbidden_attributes` (html_cleaner.py:37-40). -/
def hc_forbidden_attributes : List String :=
  ["style", "class", "id", "onclick", "onload", "onerror",
   "onmouseover", "onmouseout", "onfocus", "onblur"]

/-- `HTMLCleaner._clean_attributes` (html_cleaner.py:100-123): an attribute is
removed if it is forbidden, or starts with `data-`, or is not in the allowed
list for the element's tag; i.e. it is kept iff it is in the allowed list, not
forbidden and not a `data-` attribute. -/
def hc_clean_attrs (tag : String) (attrs : List (String × String)) :
    List (String × String) :=
  attrs.filter fun a =>
    decide (a.1 ∉ hc_forbidden_attributes) &&
    !((chars ("data-")).isPrefixOf a.1.data) &&
    decide (a.1 ∈ hc_allowed_attributes tag)

mutual

/-- `HTMLCleaner._clean_element` on a node below the root, assuming the
recursion were reached (it is not: see `hc_clean_element`).  A disallowed
element is unwrapped and the method returns before recursing, and the spliced
children are not in the parent's already-materialized `list(element.children)`
snapshot, so they are not visited. -/
def hc_clean_node : Node → Node
  | Node.text s => Node.text s
  | Node.elem tag attrs children =>
      Node.elem tag (hc_clean_attrs tag attrs) (hc_clean_children children)

def hc_clean_children : List Node → List Node
  | [] => []
  | Node.text s :: rest => Node.text s :: hc_clean_children rest
  | Node.elem tag attrs children :: rest =>
      if tag ∈ hc_allowed_tags then
        hc_clean_node (Node.elem tag attrs children) :: hc_clean_children rest
      else
        children ++ hc_clean_children rest

end

/-- `HTMLCleaner._clean_element(soup)` as invoked by `clean_html`
(html_cleaner.py:59).  The argument is the whole soup, whose tag name is
BeautifulSoup's root name `"[document]"`.  That name is not in `allowed_tags`,
so the method takes the disallowed-tag branch (html_cleaner.py:82-89):
`soup.unwrap()` raises `ValueError` because the root has no parent, the
`except` branch calls `soup.extract()`, which does nothing for a parentless
node, and the method `return`s before the recursion into children
(html_cleaner.py:94-98) is reached.  The parse tree is therefore returned
unchanged. -/
def hc_clean_element (doc : Doc) : Doc :=
  if ("[document]" : String) ∈ hc_allowed_tags then hc_clean_children doc
  else doc

/-- Quote characters of the `["\']` classes. -/
def isQuote (c : Char) : Bool := c = Char.ofNat 34 || c = Char.ofNat 39

/-- Characters that stop the greedy `[^"\'>]*` class. -/
def qstop (c : Char) : Bool := !(isQuote c || c = '>')

/-- Attempt to match `["\'][^"\'>]*["\']` (a quoted attribute value) at the
head of `l`; returns the remainder after the match.  The greedy `[^"\'>]*`
stops at the first quote or `>` because the class excludes them, so the match
succeeds iff the stopping character is a quote. -/
def matchQuotedValue : Str → Option Str
  | [] => none
  | q :: r =>
      if isQuote q then
        match r.dropWhile qstop with
        | q2 :: rest => if isQuote q2 then some rest else none
        | [] => none
      else none

/-- Match the literal string `pat` at the head of `l`. -/
def matchLit (pat : Str) (l : Str) : Option Str :=
  if pat.isPrefixOf l then some (l.drop pat.length) else none

/-- Attempt to match `\s+NAME=["\'][^"\'>]*["\']` at the head of `l` (the
shape of the `style=`/`class=`/`id=` patterns of
`HTMLCleaner._remove_data_attributes_regex`, html_cleaner.py:128-137).
`\s+` is greedy; `NAME=` cannot start with whitespace, so the maximal
whitespace run is the only candidate. -/
def matchAttrAt (name : Str) (l : Str) : Option Str :=
  match l with
  | c :: rest =>
      if isPyWs c then
        match matchLit (name ++ ['=']) ((c :: rest).dropWhile isPyWs) with
        | some r => matchQuotedValue r
        | none => none
      else none
  | [] => none

/-- The `data-[\w-]+` name class. -/
def isDataNameChar (c : Char) : Bool := isWordChar c || c = '-'

/-- Attempt to match `\s+data-[\w-]+=["\'][^"\'>]*["\']` at the head of `l`
(html_cleaner.py:128).  After `data-`, the greedy `[\w-]+` is followed by `=`,
which is not in the class, so the maximal run is the only candidate. -/
def matchDataAt (l : Str) : Option Str :=
  match l with
  | c :: rest =>
      if isPyWs c then
        match matchLit (chars ("data-")) ((c :: rest).dropWhile isPyWs) with
        | some r =>
            if (r.takeWhile isDataNameChar).isEmpty then none
            else
              match r.dropWhile isDataNameChar with
              | '=' :: r3 => matchQuotedValue r3
              | _ => none
        | none => none
      else none
  | [] => none

theorem length_dropWhile_le (p : Char → Bool) (l : Str) :
    (l.dropWhile p).length ≤ l.length := by
  induction l with
  | nil => simp [List.dropWhile]
  | cons c cs ih =>
      simp only [List.dropWhile]
      split
      · exact Nat.le_succ_of_le ih
      · exact Nat.le_refl _

theorem matchQuotedValue_length {l r : Str} (h : matchQuotedValue l = some r) :
    r.length < l.length := by
  match l with
  | [] => simp [matchQuotedValue] at h
  | q :: t =>
      have hd : (t.dropWhile qstop).length ≤ t.length := length_dropWhile_le _ t
      simp only [matchQuotedValue] at h
      by_cases hq : isQuote q = true
      · rw [if_pos hq] at h
        cases hdw : t.dropWhile qstop with
        | nil => rw [hdw] at h; cases h
        | cons q2 rest =>
            rw [hdw] at h
            simp only [] at h
            by_cases hq2 : isQuote q2 = true
            · rw [if_pos hq2] at h
              injection h with h2
              subst h2
              rw [hdw] at hd
              simp only [List.length_cons] at hd ⊢
              omega
            · rw [if_neg hq2] at h; cases h
      · rw [if_neg hq] at h; cases h

theorem matchLit_length {pat l r : Str} (h : matchLit pat l = some r) :
    r.length ≤ l.length := by
  simp only [matchLit] at h
  split at h
  · cases h; simp
  · cases h

theorem matchAttrAt_length {name l r : Str} (h : matchAttrAt name l = some r) :
    r.length < l.length := by
  match l with
  | [] => simp [matchAttrAt] at h
  | c :: t =>
      simp only [matchAttrAt] at h
      by_cases hws : isPyWs c = true
      · rw [if_pos hws] at h
        cases hml : matchLit (name ++ ['=']) ((c :: t).dropWhile isPyWs) with
        | none => rw [hml] at h; cases h
        | some r1 =>
            rw [hml] at h
            simp only [] at h
            have h1 : r1.length ≤ ((c :: t).dropWhile isPyWs).length :=
              matchLit_length hml
            have h2 := length_dropWhile_le isPyWs (c :: t)
            have h3 := matchQuotedValue_length h
            simp only [List.length_cons] at h2 ⊢
            omega
      · rw [if_neg hws] at h; cases h

theorem matchDataAt_length {l r : Str} (h : matchDataAt l = some r) :
    r.length < l.length := by
  match l with
  | [] => simp [matchDataAt] at h
  | c :: t =>
      simp only [matchDataAt] at h
      by_cases hws : isPyWs c = true
      · rw [if_pos hws] at h
        cases hml : matchLit (chars ("data-")) ((c :: t).dropWhile isPyWs) with
        | none => rw [hml] at h; cases h
        | some r1 =>
            rw [hml] at h
            simp only [] at h
            have h1 : r1.length ≤ ((c :: t).dropWhile isPyWs).length :=
              matchLit_length hml
            have h2 := length_dropWhile_le isPyWs (c :: t)
            by_cases he : (r1.takeWhile isDataNameChar).isEmpty = true
            · rw [if_pos he] at h; cases h
            · rw [if_neg he] at h
              cases hdw : r1.dropWhile isDataNameChar with
              | nil => rw [hdw] at h; cases h
              | cons c3 r3 =>
                  rw [hdw] at h
                  have h4 : (c3 :: r3).length ≤ r1.length := by
                    rw [← hdw]; exact length_dropWhile_le _ r1
                  simp only [List.length_cons] at h2 h4 ⊢
                  by_cases hc3 : c3 = '='
                  · subst hc3
                    have h5 := matchQuotedValue_length h
                    omega
                  · have : (match c3 :: r3 with
                        | '=' :: r3 => matchQuotedValue r3
                        | x => none) = none := by
                      cases c3 <;> simp_all [matchDataAt]
                    rw [this] at h
                    cases h
      · rw [if_neg hws] at h; cases h

/-- `re.sub(r'\s+NAME=["\'][^"\'>]*["\']', '', l)`: leftmost non-overlapping
matches are removed; scanning resumes after each match (no rescan of the
junction, matching CPython `re.sub`).  The fuel argument (initially the input
length) only bounds the recursion: every step consumes at least one character
(`matchAttrAt_length`), so the fuel-0 branch is never reached from `subAttr`. -/
def subAttrGo (name : Str) : Nat → Str → Str
  | _, [] => []
  | 0, l => l
  | fuel + 1, c :: cs =>
      match matchAttrAt name (c :: cs) with
      | some rest => subAttrGo name fuel rest
      | none => c :: subAttrGo name fuel cs

def subAttr (name : Str) (l : Str) : Str := subAttrGo name l.length l

/-- `re.sub(r'\s+data-[\w-]+=["\'][^"\'>]*["\']', '', l)` (same scanning
discipline as `subAttrGo`; fuel adequacy by `matchDataAt_length`). -/
def subDataGo : Nat → Str → Str
  | _, [] => []
  | 0, l => l
  | fuel + 1, c :: cs =>
      match matchDataAt (c :: cs) with
      | some rest => subDataGo fuel rest
      | none => c :: subDataGo fuel cs

def subData (l : Str) : Str := subDataGo l.length l

/-- `HTMLCleaner._remove_data_attributes_regex` (html_cleaner.py:125-139):
four `re.sub` passes, in source order `data-*`, `style`, `class`, `id`. -/
def remove_data_attributes_regex (html : Str) : Str :=
  subAttr (chars ("id"))
    (subAttr (chars ("class"))
      (subAttr (chars ("style"))
        (subData html)))


theorem dropWhile_len_lt_succ (p : Char → Bool) (l : Str) :
    (l.dropWhile p).length < l.length + 1 :=
  Nat.lt_succ_of_le (length_dropWhile_le p l)

theorem dropWhile_tail_len {p : Char → Bool} {l r : Str} {c : Char}
    (h : l.dropWhile p = c :: r) : r.length < l.length + 1 := by
  have h1 := length_dropWhile_le p l
  rw [h] at h1
  simp only [List.length_cons] at h1
  omega

theorem sub1_pos (l : Str)
    (h : 3 ≤ (l.takeWhile isPyWs).count '\n') :
    0 < ((l.takeWhile isPyWs).reverse.dropWhile
          (fun x => !(x = '\n'))).length := by
  have hmem : '\n' ∈ l.takeWhile isPyWs := by
    have h0 : 0 < (l.takeWhile isPyWs).count '\n' := by omega
    exact List.count_pos_iff.mp (by exact_mod_cast h0)
  have hne : (l.takeWhile isPyWs).reverse.dropWhile
      (fun x => !(x = '\n')) ≠ [] := by
    intro hk
    have hall := List.dropWhile_eq_nil_iff.mp hk '\n' (by simpa using hmem)
    simp at hall
  exact List.length_pos.mpr hne

/-- `re.sub(r'>\s+<', '><', html)` (first pass of
`HTMLCleaner._normalize_whitespace`, html_cleaner.py:144): at a `>`, the
greedy `\s+` takes the maximal whitespace run, which must be nonempty and
followed by `<`; scanning resumes after the consumed `<`.

`pending = some run` means the scanner sits inside the whitespace run that
follows a `>` already emitted (`run` holds that whitespace, reversed).  When
the run ends at `<` and is nonempty, the match fires and the run is dropped;
any other terminator flushes the run unchanged.  A match cannot start inside
the flushed run (the pattern starts with `>`), so this is exactly `re.sub`'s
leftmost scan. -/
def nws1go : Option Str → Str → Str
  | none, [] => []
  | some run, [] => run.reverse
  | none, c :: cs =>
      if c = '>' then '>' :: nws1go (some []) cs
      else c :: nws1go none cs
  | some run, c :: cs =>
      if isPyWs c then nws1go (some (c :: run)) cs
      else if c = '<' && !run.isEmpty then '<' :: nws1go none cs
      else
        run.reverse ++
          (if c = '>' then '>' :: nws1go (some []) cs else c :: nws1go none cs)

def nws1 (l : Str) : Str := nws1go none l

/-- `re.sub(r'\s+', ' ', html)` (second pass, html_cleaner.py:147): each
maximal whitespace run becomes a single space. -/
def nws2go : Bool → Str → Str
  | _, [] => []
  | inRun, c :: cs =>
      if isPyWs c then
        if inRun then nws2go true cs else ' ' :: nws2go true cs
      else c :: nws2go false cs

def nws2 (l : Str) : Str := nws2go false l

/-- `re.sub(r'\s+>', '>', html)` (third pass, html_cleaner.py:150): a maximal
whitespace run immediately followed by `>` is removed.

The first argument holds the current whitespace run (reversed); a run
terminated by `>` is dropped, any other terminator flushes it.  A match
cannot start inside a flushed run because the whole run is followed by a
non-`>` character. -/
def nws3go : Str → Str → Str
  | run, [] => run.reverse
  | run, c :: cs =>
      if isPyWs c then nws3go (c :: run) cs
      else if c = '>' then '>' :: nws3go [] cs
      else run.reverse ++ (c :: nws3go [] cs)

def nws3 (l : Str) : Str := nws3go [] l

/-- `HTMLCleaner._normalize_whitespace` (html_cleaner.py:141-152). -/
def normalize_whitespace (html : Str) : Str := nws3 (nws2 (nws1 html))

/-- `HTMLCleaner.clean_html` (html_cleaner.py:42-76).  `parse` models
`BeautifulSoup(html_content, 'html.parser')`, an external library call, and is
passed explicitly.  Blank input returns `""` before any parse.  Otherwise the
tree pass `_clean_element(soup)` runs (and leaves the tree unchanged, see
`hc_clean_element`), the tree is serialized, and the regex fallback and
whitespace normalization run on the string, which is finally stripped.  The
`except` fallback (html_cleaner.py:72-76) is unreachable here: none of the
modelled operations raises. -/
def clean_html (parse : Str → Doc) (html_content : Str) : Str :=
  if pystrip html_content = [] then []
  else
    pystrip (normalize_whitespace (remove_data_attributes_regex
      (serializeDoc (hc_clean_element (parse html_content)))))

/-! ## ContentSanitizer (src/image_api.py:14-132) -/

/-- `ContentSanitizer.attributes_to_remove` (image_api.py:19-26).  This list
is defined by the source but never consulted by `sanitize_content` or its
helpers; it is reproduced here for completeness. -/
def cs_attributes_to_remove : List String :=
  ["style", "class", "id", "data-*", "onclick", "onload", "onerror",
   "onmouseover", "onmouseout", "onfocus", "onblur", "onchange",
   "onsubmit", "onreset", "onselect", "onkeydown", "onkeypress",
   "onkeyup", "width", "height", "align", "valign", "bgcolor",
   "background", "border", "cellpadding", "cellspacing", "face",
   "size", "color"]

/-- `ContentSanitizer.allowed_tags` (image_api.py:29-39). -/
def cs_allowed_tags : List String :=
  ["h1", "h2", "h3", "h4", "h5", "h6",
   "p", "br", "hr",
   "strong", "b", "em", "i", "u", "strike", "del",
   "blockquote", "cite", "q",
   "ul", "ol", "li",
   "a", "img",
   "table", "thead", "tbody", "tr", "th", "td",
   "div", "span",
   "code", "pre"]

/-- `ContentSanitizer.allowed_attributes` (image_api.py:42-47). -/
def cs_allowed_attributes (tag : String) : List String :=
  if tag = "a" then ["href", "title", "target"]
  else if tag = "img" then ["src", "alt", "title"]
  else if tag = "blockquote" then ["cite"]
  else if tag = "q" then ["cite"]
  else []

mutual

/-- `ContentSanitizer._remove_unwanted_tags` (image_api.py:80-85).
`soup.find_all()` materializes every element of the tree (in document order)
before the loop, and `unwrap` keeps an element's children in the tree, so
every element — including those nested under an unwrapped one — is visited
and unwrapped if its tag is not allowed.  The net effect is this recursive
unwrap. -/
def cs_remove_unwanted_node : Node → List Node
  | Node.text s => [Node.text s]
  | Node.elem tag attrs children =>
      let c := cs_remove_unwanted_list children
      if tag ∈ cs_allowed_tags then [Node.elem tag attrs c] else c

def cs_remove_unwanted_list : List Node → List Node
  | [] => []
  | n :: rest => cs_remove_unwanted_node n ++ cs_remove_unwanted_list rest

end

/-- The keep-condition of `ContentSanitizer._clean_attributes`
(image_api.py:87-113): an attribute is removed when it is not in the per-tag
allowed list or starts with `data-`; it is kept iff it is allowed for the tag
and is not a `data-` attribute. -/
def cs_keep_attr (tag : String) (a : String × String) : Bool :=
  decide (a.1 ∈ cs_allowed_attributes tag) && !((chars ("data-")).isPrefixOf a.1.data)

mutual

/-- `ContentSanitizer._clean_attributes` (image_api.py:87-113), applied to
every element of the tree (`soup.find_all()`). -/
def cs_clean_attrs_node : Node → Node
  | Node.text s => Node.text s
  | Node.elem tag attrs children =>
      Node.elem tag (attrs.filter (cs_keep_attr tag)) (cs_clean_attrs_list children)

def cs_clean_attrs_list : List Node → List Node
  | [] => []
  | n :: rest => cs_clean_attrs_node n :: cs_clean_attrs_list rest

end

/-- The document transform of `ContentSanitizer.sanitize_content`
(image_api.py:62-73): remove unwanted tags, then clean attributes. -/
def csCleanDoc (d : Doc) : Doc :=
  cs_clean_attrs_list (cs_remove_unwanted_list d)

/-- `ContentSanitizer.sanitize_content` (image_api.py:49-78).  Blank (empty or
whitespace-only) input is returned unchanged — not replaced by the empty
string.  Otherwise the parsed tree is cleaned and re-serialized.  The
`except` branch (image_api.py:75-78) is unreachable here: none of the
modelled operations raises. -/
def sanitize_content (parse : Str → Doc) (html_content : Str) : Str :=
  if pystrip html_content = [] then html_content
  else serializeDoc (csCleanDoc (parse html_content))

/-- `re.sub(r'\n\s*\n\s*\n+', '\n\n', s)` (image_api.py:129).  A match starts
at a newline whose maximal whitespace run contains at least three newlines,
and by greediness extends exactly through the last newline of that run.

The fuel (initially the input length) only bounds the recursion; every step
consumes at least one character (`sub1_pos`), so fuel never runs out. -/
def sub1go : Nat → Str → Str
  | _, [] => []
  | 0, l => l
  | fuel + 1, c :: cs =>
      if c = '\n' then
        let run := (c :: cs).takeWhile isPyWs
        if 3 ≤ run.count '\n' then
          '\n' :: '\n' :: sub1go fuel
            ((c :: cs).drop
              ((run.reverse.dropWhile (fun x => !(x = '\n'))).length))
        else c :: sub1go fuel cs
      else c :: sub1go fuel cs

def sub1 (l : Str) : Str := sub1go l.length l

/-- `re.sub(r'[ \t]+', ' ', s)` (image_api.py:130). -/
def sub2go : Bool → Str → Str
  | _, [] => []
  | inRun, c :: cs =>
      if c = ' ' || c = '\t' then
        if inRun then sub2go true cs else ' ' :: sub2go true cs
      else c :: sub2go false cs

def sub2 (l : Str) : Str := sub2go false l

/-- `ContentSanitizer.clean_text_content` (image_api.py:115-132): sanitize,
collapse runs of three or more blank-line newlines, collapse spaces/tabs,
strip. -/
def clean_text_content (parse : Str → Doc) (content : Str) : Str :=
  pystrip (sub2 (sub1 (sanitize_content parse content)))

/-! ## ImageProcessor (src/image_api.py:387-601) -/

/-- `re.sub(r'<[^>]+>', '', content)` (image_api.py:406): remove each `<`,
at least one non-`>` character, `>` group.  Fuel bounds the recursion (a
match consumes at least three characters, a non-match advances one). -/
def stripTagsGo : Nat → Str → Str
  | _, [] => []
  | 0, l => l
  | fuel + 1, c :: cs =>
      if c = '<' then
        match cs.dropWhile (fun x => !(x = '>')) with
        | '>' :: r =>
            if (cs.takeWhile (fun x => !(x = '>'))).isEmpty then
              c :: stripTagsGo fuel cs
            else stripTagsGo fuel r
        | _ => c :: stripTagsGo fuel cs
      else c :: stripTagsGo fuel cs

def stripTags (l : Str) : Str := stripTagsGo l.length l

/-- Maximal `\w`-runs of a string, in order (the matches of `\b\w+\b`).
Fuel bounds the recursion. -/
def wordRunsGo : Nat → Str → List Str
  | _, [] => []
  | 0, _ => []
  | fuel + 1, c :: cs =>
      if isWordChar c then
        ((c :: cs).takeWhile isWordChar) ::
          wordRunsGo fuel ((c :: cs).dropWhile isWordChar)
      else wordRunsGo fuel cs

def wordRuns (l : Str) : List Str := wordRunsGo l.length l

/-- The matches of `re.findall(r'\b[a-zA-Z]{4,}\b', l)`: a maximal `\w`-run
matches iff it consists solely of letters and has length at least 4 (a run
adjacent to a digit or underscore cannot satisfy both word boundaries). -/
def findallAlpha4 (l : Str) : List Str :=
  (wordRuns l).filter (fun r => r.all isAsciiAlpha && decide (4 ≤ r.length))

/-- The stop-word set of `ImageProcessor.extract_keywords_from_content`
(image_api.py:412-422), verbatim. -/
def stop_words : List Str :=
  [chars ("this"), chars ("that"), chars ("with"), chars ("have"),
   chars ("will"), chars ("from"), chars ("they"), chars ("know"),
   chars ("want"), chars ("been"), chars ("good"), chars ("much"),
   chars ("some"), chars ("time"), chars ("very"), chars ("when"),
   chars ("come"), chars ("here"), chars ("just"), chars ("like"),
   chars ("long"), chars ("make"), chars ("many"), chars ("over"),
   chars ("such"), chars ("take"), chars ("than"), chars ("them"),
   chars ("well"), chars ("were"), chars ("what"), chars ("your"),
   chars ("about"), chars ("after"), chars ("again"), chars ("before"),
   chars ("being"), chars ("below"), chars ("between"), chars ("both"),
   chars ("during"), chars ("each"), chars ("further"), chars ("having"),
   chars ("into"), chars ("more"), chars ("most"), chars ("other"),
   chars ("should"), chars ("through"), chars ("under"), chars ("until"),
   chars ("while"), chars ("above"), chars ("against"), chars ("because"),
   chars ("doing"), chars ("down"), chars ("once"), chars ("only"),
   chars ("same"), chars ("there"), chars ("these"), chars ("those"),
   chars ("where"), chars ("which"), chars ("would")]

/-- One step of the frequency dictionary `word_freq[word] =
word_freq.get(word, 0) + 1` (image_api.py:428-430): Python dicts preserve
insertion order, so a new word is appended at the end. -/
def bumpCount : List (Str × Nat) → Str → List (Str × Nat)
  | [], w => [(w, 1)]
  | (k, n) :: rest, w =>
      if k = w then (k, n + 1) :: rest else (k, n) :: bumpCount rest w

/-- Insert `x` into a descending-by-count list, after all entries with count
greater than or equal to `x`'s.  Folding this over the entries in insertion
order is CPython's stable `sorted(..., key=lambda x: x[1], reverse=True)`
(image_api.py:433): ties keep first-insertion order. -/
def insCountDesc : List (Str × Nat) → (Str × Nat) → List (Str × Nat)
  | [], x => [x]
  | y :: ys, x => if x.2 ≤ y.2 then y :: insCountDesc ys x else x :: y :: ys

def sortCountDesc (l : List (Str × Nat)) : List (Str × Nat) :=
  l.foldl insCountDesc []

/-- `ImageProcessor.extract_keywords_from_content` (image_api.py:403-436).
Python's `str.lower()` is modelled by `Char.toLower` (the inputs here are
ASCII). -/
def extract_keywords_from_content (content : Str) (max_keywords : Nat) :
    List Str :=
  let clean_content := stripTags content
  let words := findallAlpha4 (clean_content.map Char.toLower)
  let filtered := words.filter (fun w => decide (w ∉ stop_words))
  let freq := filtered.foldl bumpCount []
  ((sortCountDesc freq).take max_keywords).map (fun p => p.1)

/-- An image candidate as consumed by `ImageProcessor`: `image['id']` and the
optional `'description'` key read by `image.get('description', keyword)`. -/
structure Image where
  id : Str
  description : Option Str
deriving DecidableEq

/-- Fallback for total indexing; never selected (the selection index is
always in range). -/
def defaultImage : Image := ⟨[], none⟩

/-- `ImageProcessor.select_unique_image` (image_api.py:438-456).  The used-id
set is modelled as a duplicate-free list; `random.choice(available)` is
modelled by the draw `k`, indexing `available` at `k % available.length`.
When every candidate id is already used, the registry is cleared and the full
candidate list is reused (image_api.py:447-450). -/
def select_unique_image (k : Nat) (images : List Image) (used : List Str) :
    Option Image × List Str :=
  if images.isEmpty then (none, used)
  else
    let available := images.filter (fun img => decide (img.id ∉ used))
    let pair :=
      if available.isEmpty then (images, ([] : List Str)) else (available, used)
    let chosen := pair.1.getD (k % pair.1.length) defaultImage
    (some chosen, pair.2.insert chosen.id)

/-- `re.match(r'</p>\s*<p>', s)` truthiness (image_api.py:474): does `s`
start with `</p>`, optional whitespace, `<p>`? -/
def isCloseOpenPiece (s : Str) : Bool :=
  match matchLit (chars ("</p>")) s with
  | some r =>
      match matchLit (chars ("<p>")) (r.dropWhile isPyWs) with
      | some _ => true
      | none => false
  | none => false

/-- Leftmost-alternative match of the `re.split` delimiter
`(\n\s*\n|</p>\s*<p>|</p>|<p>)` (image_api.py:466) at the head of `l`,
returning the matched delimiter and the remainder.  `\n\s*\n` starts with a
newline and the other alternatives with `<`, so alternative order only
matters among the `<`-shaped ones, which are tried in pattern order.  For
`\n\s*\n`, greediness makes the match extend exactly through the last
newline of the maximal whitespace run. -/
def matchDelim (l : Str) : Option (Str × Str) :=
  match l with
  | '\n' :: rest =>
      let run := rest.takeWhile isPyWs
      if 0 < run.count '\n' then
        let klen := (run.reverse.dropWhile (fun x => !(x = '\n'))).length
        some ('\n' :: rest.take klen, rest.drop klen)
      else none
  | '<' :: rest =>
      match matchLit (chars ("/p>")) rest with
      | some r2 =>
          let ws := r2.takeWhile isPyWs
          match matchLit (chars ("<p>")) (r2.dropWhile isPyWs) with
          | some r4 => some (chars ("</p>") ++ ws ++ chars ("<p>"), r4)
          | none => some (chars ("</p>"), r2)
      | none =>
          match matchLit (chars ("p>")) rest with
          | some r2 => some (chars ("<p>"), r2)
          | none => none
  | _ => none

/-- `re.split` with the single capture group above: the pieces alternate
text, delimiter, text, ... and concatenate back to the input (the whole
pattern is one capture group, so delimiters are kept).  `acc` holds the
current text piece, reversed; fuel bounds the recursion. -/
def splitParasGo : Nat → Str → Str → List Str
  | _, acc, [] => [acc.reverse]
  | 0, acc, l => [acc.reverse ++ l]
  | fuel + 1, acc, c :: cs =>
      match matchDelim (c :: cs) with
      | some (d, rest) => acc.reverse :: d :: splitParasGo fuel [] rest
      | none => splitParasGo fuel (c :: acc) cs

def splitParas (l : Str) : List Str := splitParasGo l.length [] l

/-- The skip condition of `ImageProcessor.split_content_by_words`
(image_api.py:474): blank piece, a bare `</p>` or `<p>`, or a piece whose
strip starts with `</p>\s*<p>`. -/
def isSkipPiece (p : Str) : Bool :=
  pystrip p = [] || pystrip p = chars ("</p>") || pystrip p = chars ("<p>") ||
    isCloseOpenPiece (pystrip p)

/-- The accumulation loop of `ImageProcessor.split_content_by_words`
(image_api.py:468-496), with state (emitted sections, current section,
current word count). -/
def splitLoop (wps : Int) : List Str → List Str → Str → Nat → List Str
  | [], sections, current, _ =>
      if pystrip current = [] then sections else sections ++ [pystrip current]
  | p :: ps, sections, current, count =>
      if isSkipPiece p then splitLoop wps ps sections (current ++ p) count
      else
        let pw := (wordRuns p).length
        if 0 < count && decide ((wps : Int) < (count : Int) + (pw : Int)) then
          splitLoop wps ps (sections ++ [pystrip current]) p pw
        else splitLoop wps ps sections (current ++ p) (count + pw)

/-- `ImageProcessor.split_content_by_words` (image_api.py:463-496). -/
def split_content_by_words (content : Str) (words_per_section : Int) :
    List Str :=
  splitLoop words_per_section (splitParas content) [] [] 0

/-- The loop state of `ImageProcessor.insert_images_in_content`
(image_api.py:526-580), plus two read-only trace fields mirroring the
source's log lines: `embedded_ids` records `image['id']` at each successful
splice (the prints at image_api.py:578-580), and `resets` counts the
"resetting tracking" events inside `select_unique_image`
(image_api.py:448). -/
structure AsmState where
  modified : Str
  used_images : List Str
  used_ids : List Str
  embedded_ids : List Str
  resets : Nat

def initAsmState : AsmState := ⟨[], [], [], [], 0⟩

/-- The fallback keyword list (image_api.py:513). -/
def fallback_keywords : List Str :=
  [chars ("business"), chars ("technology"), chars ("professional"),
   chars ("modern"), chars ("creative"), chars ("innovation")]

/-- The per-boundary body of the assembly loop (image_api.py:534-580).
`search` and `getUrl` model the image-provider collaborator
(`search_images` / `get_image_download_url`); `wp` models the optional
WordPress media uploader: `some upload` with `upload url alt = some media`
meaning a successful `upload_media` whose `media_data` has
`media.getD url` as `source_url`, and `none` a failed upload (both fall
back to the provider URL, image_api.py:560-566); `pick` models the
`random.choice` draw of this boundary. -/
def asmStep (search : Str → List Image) (getUrl : Str → Option Str)
    (wp : Option (Str → Str → Option (Option Str))) (pick : Nat)
    (keyword : Str) (st : AsmState) : AsmState :=
  let images := search keyword
  if images.isEmpty then st
  else
    let didReset :=
      (images.filter (fun img => decide (img.id ∉ st.used_ids))).isEmpty
    let res := select_unique_image pick images st.used_ids
    let st1 := { st with used_ids := res.2,
                         resets := st.resets + (if didReset then 1 else 0) }
    match res.1 with
    | none => st1
    | some image =>
        match getUrl image.id with
        | none => st1
        | some image_url =>
            let alt_text := image.description.getD keyword
            let final_url :=
              match wp with
              | none => image_url
              | some upload =>
                  match upload image_url alt_text with
                  | some media => media.getD image_url
                  | none => image_url
            let m :=
              if st1.modified.getLast? = some '\n' then st1.modified
              else st1.modified ++ ['\n']
            let image_html :=
              ['\n'] ++ chars ("<p><img src=\"") ++ final_url ++
                chars ("\" alt=\"") ++ alt_text ++ chars ("\"></p>") ++ ['\n']
            { st1 with
                modified := m ++ image_html,
                used_images := st1.used_images ++ [final_url],
                embedded_ids := st1.embedded_ids ++ [image.id] }

/-- `for i, section in enumerate(sections)` (image_api.py:529-580): append
the section, and after every section except the last run the image step with
keyword `keywords[i % len(keywords)]`. -/
def asmLoop (search : Str → List Image) (getUrl : Str → Option Str)
    (wp : Option (Str → Str → Option (Option Str))) (picks : Nat → Nat)
    (keywords : List Str) (total : Nat) :
    List Str → Nat → AsmState → AsmState
  | [], _, st => st
  | sec :: rest, i, st =>
      let st1 := { st with modified := st.modified ++ sec }
      let st2 :=
        if i + 1 < total then
          asmStep search getUrl wp (picks i)
            (keywords.getD (i % keywords.length) []) st1
        else st1
      asmLoop search getUrl wp picks keywords total rest (i + 1) st2

/-- The full run of `ImageProcessor.insert_images_in_content`
(image_api.py:498-585) up to (and including) the section loop, returning the
final loop state; the early-return paths (blank content, at most one
section) run no loop and return the initial state.  `parse` models
`BeautifulSoup(..., 'html.parser')`; `shuffle` models
`random.shuffle(keywords)` (image_api.py:516), an arbitrary RNG-chosen
reordering; `picks` models the successive `random.choice` draws. -/
def insert_images_trace (parse : Str → Doc) (shuffle : List Str → List Str)
    (search : Str → List Image) (getUrl : Str → Option Str)
    (wp : Option (Str → Str → Option (Option Str))) (picks : Nat → Nat)
    (content : Str) (words_per_image : Int) : AsmState :=
  if pystrip content = [] then initAsmState
  else
    let sanitized := sanitize_content parse content
    let kw0 := extract_keywords_from_content sanitized 6
    let keywords := shuffle (if kw0.isEmpty then fallback_keywords else kw0)
    let sections := split_content_by_words sanitized words_per_image
    if sections.length ≤ 1 then initAsmState
    else
      asmLoop search getUrl wp picks keywords sections.length sections 0
        initAsmState

/-- `ImageProcessor.insert_images_in_content` (image_api.py:498-585).  Blank
content is returned unchanged with an empty list (image_api.py:500-501); the
used-image registry starts empty (`reset_used_images`, image_api.py:504);
with at most one section the result is `clean_text_content(sanitized)` with
an empty list (image_api.py:522-524); otherwise the loop runs and the final
content is `clean_text_content(modified)` (image_api.py:583-585). -/
def insert_images_in_content (parse : Str → Doc) (shuffle : List Str → List Str)
    (search : Str → List Image) (getUrl : Str → Option Str)
    (wp : Option (Str → Str → Option (Option Str))) (picks : Nat → Nat)
    (content : Str) (words_per_image : Int) : Str × List Str :=
  if pystrip content = [] then (content, [])
  else
    let sanitized := sanitize_content parse content
    let kw0 := extract_keywords_from_content sanitized 6
    let keywords := shuffle (if kw0.isEmpty then fallback_keywords else kw0)
    let sections := split_content_by_words sanitized words_per_image
    if sections.length ≤ 1 then (clean_text_content parse sanitized, [])
    else
      let st :=
        asmLoop search getUrl wp picks keywords sections.length sections 0
          initAsmState
      (clean_text_content parse st.modified, st.used_images)

mutual

/-- All elements of a node, as (tag, attributes) pairs in document order. -/
def elemsOfNode : Node → List (String × List (String × String))
  | Node.text _ => []
  | Node.elem tag attrs children => (tag, attrs) :: elemsOfList children

def elemsOfList : List Node → List (String × List (String × String))
  | [] => []
  | n :: rest => elemsOfNode n ++ elemsOfList rest

end

/-- All elements of a document. -/
def docElems (d : Doc) : List (String × List (String × String)) :=
  elemsOfList d


/-! ## Auxiliary predicates and concrete fixtures -/

/-- No two adjacent whitespace characters. -/
def noAdjWs : Str → Bool
  | a :: b :: rest => (!(isPyWs a && isPyWs b)) && noAdjWs (b :: rest)
  | _ => true

/-- Whether an occurrence of `>`, one or more whitespace characters, `<`
starts at a position holding character `c` followed by `rest`. -/
def gtTest (c : Char) (rest : Str) : Bool :=
  if c = '>' then
    match rest.dropWhile isPyWs with
    | '<' :: _ => !(rest.takeWhile isPyWs).isEmpty
    | _ => false
  else false

/-- Whether the string contains an occurrence of `>`, one or more whitespace
characters, `<` (the pattern removed by the first normalization pass). -/
def hasGtWsLt : Str → Bool
  | [] => false
  | c :: rest => gtTest c rest || hasGtWsLt rest

/-- The html.parser parse trees used by the concrete idempotence
counterexample: `<p>a sty style="q"le="b"</p>` parses to a `p` element with a
single text child (the quotes and spaces are plain text), and likewise for
`<p>a style="b"</p>`.  Any other string fed to this fixture contains no `<`
and parses to a single text run. -/
def parse_fix_c1 : Str → Doc := fun s =>
  if s = chars ("<p>a sty style=\"q\"le=\"b\"</p>") then
    [Node.elem ("p") [] [Node.text ("a sty style=\"q\"le=\"b\"")]]
  else if s = chars ("<p>a style=\"b\"</p>") then
    [Node.elem ("p") [] [Node.text ("a style=\"b\"")]]
  else [Node.text (String.mk s)]

/-- html.parser parse trees for the whitelist-closure failing inputs: a
`script` element whose body is raw text, and a `p` element carrying an
`onclick` attribute. -/
def parse_fix_c2 : Str → Doc := fun s =>
  if s = chars ("<script>alert(1)</script>") then
    [Node.elem ("script") [] [Node.text ("alert(1)")]]
  else if s = chars ("<p onclick=\"evil()\">hi</p>") then
    [Node.elem ("p") [("onclick", "evil()")] [Node.text ("hi")]]
  else [Node.text (String.mk s)]

/-- html.parser parse tree for `<img src="u" width="5">`: a void `img`
element with its two attributes in document order. -/
def parse_fix_c8 : Str → Doc := fun s =>
  if s = chars ("<img src=\"u\" width=\"5\">") then
    [Node.elem ("img") [("src", "u"), ("width", "5")] []]
  else [Node.text (String.mk s)]

/-- A one-candidate provider response used by concrete assembler runs. -/
def img_fix : Image := ⟨chars ("id1"), some (chars ("d"))⟩

/-- html.parser parse tree of the markup the concrete assembler run builds
("a", two newlines, an image paragraph, newline, "b"); every other string
this run parses contains no `<` and parses to a single text run. -/
def parse_fix_c4 : Str → Doc := fun s =>
  if s = chars ("a\n\n<p><img src=\"http://u\" alt=\"d\"></p>\nb") then
    [Node.text ("a\n\n"),
     Node.elem ("p") []
       [Node.elem ("img") [("src", "http://u"), ("alt", "d")] []],
     Node.text ("\nb")]
  else [Node.text (String.mk s)]

/-- html.parser on a string with no markup: a single text run.  Used as the
parse model for inputs that contain no `<`. -/
def dflt_parse : Str → Doc := fun s => [Node.text (String.mk s)]

/-- The de-duplication invariant of the assembly loop: no image id embedded
twice, and every embedded id is in the registry. -/
def AsmInv (st : AsmState) : Prop :=
  st.embedded_ids.Nodup ∧ ∀ id ∈ st.embedded_ids, id ∈ st.used_ids

/-! ## General lemmas -/

theorem mem_getD_of_lt {α : Type} (l : List α) (i : Nat) (d : α)
    (h : i < l.length) : l.getD i d ∈ l := by
  induction l generalizing i with
  | nil => simp at h
  | cons a t ih =>
      cases i with
      | zero => simp [List.getD]
      | succ j =>
          have hj : j < t.length := by simpa using h
          simp only [List.getD_cons_succ]
          exact List.mem_cons_of_mem a (ih j hj)

theorem select_some_of_ne_nil (k : Nat) (images : List Image) (used : List Str)
    (h : images ≠ []) :
    ∃ img, (select_unique_image k images used).1 = some img := by
  unfold select_unique_image
  rw [if_neg (by simpa [List.isEmpty_iff] using h)]
  exact ⟨_, rfl⟩

/-- Core analysis of `select_unique_image` on a nonempty candidate list:
the chosen image is a candidate, its id is registered on return, and when
some candidate was unused the choice is made among the unused ones (no
reset); when all were used, the registry is reset to exactly the chosen id. -/
theorem select_unique_spec (k : Nat) (images : List Image) (used : List Str)
    (h : images ≠ []) :
    ∀ img, (select_unique_image k images used).1 = some img →
      img ∈ images
      ∧ img.id ∈ (select_unique_image k images used).2
      ∧ ((∃ j ∈ images, j.id ∉ used) →
          (img.id ∉ used ∧
           (select_unique_image k images used).2 = used.insert img.id))
      ∧ ((∀ j ∈ images, j.id ∈ used) →
          (select_unique_image k images used).2 = [img.id]) := by
  intro img himg
  have hne : images.isEmpty = false := by
    cases images with
    | nil => exact absurd rfl h
    | cons a t => rfl
  simp only [select_unique_image, hne, Bool.false_eq_true, if_false] at himg ⊢
  by_cases hA : (images.filter (fun img => decide (img.id ∉ used))).isEmpty = true
  · -- all candidates already used: registry cleared, full list reused
    rw [if_pos hA] at himg ⊢
    have hlen : 0 < images.length := by
      cases images with
      | nil => exact absurd rfl h
      | cons a t => simp
    have hmem : images.getD (k % images.length) defaultImage ∈ images :=
      mem_getD_of_lt _ _ _ (Nat.mod_lt _ hlen)
    injection himg with h1
    subst h1
    refine ⟨hmem, ?_, ?_, ?_⟩
    · rw [List.insert_nil]
      exact List.mem_singleton.mpr rfl
    · intro hex
      exfalso
      obtain ⟨j, hj, hjid⟩ := hex
      have : j ∈ images.filter (fun img => decide (img.id ∉ used)) :=
        List.mem_filter.mpr ⟨hj, by simpa using hjid⟩
      rw [List.isEmpty_iff.mp hA] at this
      simp at this
    · intro _
      rw [List.insert_nil]
  · -- some candidate unused: choose among the unused ones
    rw [if_neg hA] at himg ⊢
    have hAne : images.filter (fun img => decide (img.id ∉ used)) ≠ [] := by
      intro hnil
      exact hA (List.isEmpty_iff.mpr hnil)
    have hlen : 0 < (images.filter (fun img => decide (img.id ∉ used))).length :=
      List.length_pos.mpr hAne
    have hmem : (images.filter (fun img => decide (img.id ∉ used))).getD
        (k % (images.filter (fun img => decide (img.id ∉ used))).length)
        defaultImage ∈ images.filter (fun img => decide (img.id ∉ used)) :=
      mem_getD_of_lt _ _ _ (Nat.mod_lt _ hlen)
    injection himg with h1
    subst h1
    have hmem2 := List.mem_filter.mp hmem
    refine ⟨hmem2.1, List.mem_insert_self _ _, ?_, ?_⟩
    · intro _
      exact ⟨by simpa using hmem2.2, rfl⟩
    · intro hall
      exfalso
      exact (by simpa using hmem2.2 : _ ∉ used) (hall _ hmem2.1)

/-- When the splitter yields at most one section (and content is not blank),
`insert_images_in_content` returns `clean_text_content(sanitized)` with an
empty usage list (image_api.py:522-524). -/
theorem insert_images_le_one (parse : Str → Doc) (shuffle : List Str → List Str)
    (search : Str → List Image) (getUrl : Str → Option Str)
    (wp : Option (Str → Str → Option (Option Str))) (picks : Nat → Nat)
    (content : Str) (wpi : Int)
    (h1 : pystrip content ≠ [])
    (h2 : (split_content_by_words (sanitize_content parse content) wpi).length ≤ 1) :
    insert_images_in_content parse shuffle search getUrl wp picks content wpi
      = (clean_text_content parse (sanitize_content parse content), []) := by
  simp only [insert_images_in_content]
  rw [if_neg h1, if_pos h2]

/-- For a nonpositive word target the close condition
`count > 0 ∧ count + pw > wps` degenerates to `count > 0`, independently of
the particular nonpositive value. -/
theorem splitLoop_nonpos (wps : Int) (hw : wps ≤ 0) :
    ∀ (ps sections : List Str) (current : Str) (count : Nat),
      splitLoop wps ps sections current count
        = splitLoop 0 ps sections current count := by
  intro ps
  induction ps with
  | nil => intro sections current count; rfl
  | cons p ps ih =>
      intro sections current count
      simp only [splitLoop]
      by_cases hs : isSkipPiece p = true
      · rw [if_pos hs, if_pos hs]
        exact ih _ _ _
      · rw [if_neg hs, if_neg hs]
        have hcond :
            (0 < count && decide ((wps : Int) < (count : Int) + (((wordRuns p).length : Nat) : Int)))
              = (0 < count && decide ((0 : Int) < (count : Int) + (((wordRuns p).length : Nat) : Int))) := by
          by_cases hc : 0 < count
          · have e1 : decide ((wps : Int) < (count : Int) + (((wordRuns p).length : Nat) : Int)) = true := by
              apply decide_eq_true
              have h1 : (1 : Int) ≤ (count : Int) := by exact_mod_cast hc
              have h2 : (0 : Int) ≤ (((wordRuns p).length : Nat) : Int) := by positivity
              omega
            have e2 : decide ((0 : Int) < (count : Int) + (((wordRuns p).length : Nat) : Int)) = true := by
              apply decide_eq_true
              have h1 : (1 : Int) ≤ (count : Int) := by exact_mod_cast hc
              have h2 : (0 : Int) ≤ (((wordRuns p).length : Nat) : Int) := by positivity
              omega
            rw [e1, e2]
          · have e0 : decide (0 < count) = false := by simpa using hc
            simp [hc]
        rw [hcond]
        by_cases hfull : (0 < count && decide ((0 : Int) < (count : Int) + (((wordRuns p).length : Nat) : Int))) = true
        · rw [if_pos hfull, if_pos hfull]
          exact ih _ _ _
        · rw [if_neg hfull, if_neg hfull]
          exact ih _ _ _

theorem elemsOfList_append (l1 l2 : List Node) :
    elemsOfList (l1 ++ l2) = elemsOfList l1 ++ elemsOfList l2 := by
  induction l1 with
  | nil => rfl
  | cons n rest ih => simp [elemsOfList, ih]

mutual

theorem ru_tags_node : ∀ (n : Node),
    ∀ p ∈ elemsOfList (cs_remove_unwanted_node n), p.1 ∈ cs_allowed_tags
  | Node.text s => by simp [cs_remove_unwanted_node, elemsOfList, elemsOfNode]
  | Node.elem t a c => by
      intro p hp
      simp only [cs_remove_unwanted_node] at hp
      by_cases ht : t ∈ cs_allowed_tags
      · rw [if_pos ht] at hp
        simp only [elemsOfList, elemsOfNode, List.append_nil] at hp
        rcases List.mem_cons.mp hp with h1 | h2
        · rw [h1]; exact ht
        · exact ru_tags_list c p h2
      · rw [if_neg ht] at hp
        exact ru_tags_list c p hp

theorem ru_tags_list : ∀ (l : List Node),
    ∀ p ∈ elemsOfList (cs_remove_unwanted_list l), p.1 ∈ cs_allowed_tags
  | [] => by simp [cs_remove_unwanted_list, elemsOfList]
  | n :: rest => by
      intro p hp
      simp only [cs_remove_unwanted_list] at hp
      rw [elemsOfList_append] at hp
      rcases List.mem_append.mp hp with h1 | h2
      · exact ru_tags_node n p h1
      · exact ru_tags_list rest p h2

end

mutual

theorem ru_fixed_node : ∀ (n : Node),
    (∀ p ∈ elemsOfNode n, p.1 ∈ cs_allowed_tags) →
      cs_remove_unwanted_node n = [n]
  | Node.text s => by intro _; rfl
  | Node.elem t a c => by
      intro h
      have ht : t ∈ cs_allowed_tags := by
        exact h (t, a) (by simp [elemsOfNode])
      have hc : cs_remove_unwanted_list c = c :=
        ru_fixed_list c (fun p hp => h p (by simp [elemsOfNode, hp]))
      simp [cs_remove_unwanted_node, ht, hc]

theorem ru_fixed_list : ∀ (l : List Node),
    (∀ p ∈ elemsOfList l, p.1 ∈ cs_allowed_tags) →
      cs_remove_unwanted_list l = l
  | [] => by intro _; rfl
  | n :: rest => by
      intro h
      have h1 := ru_fixed_node n
        (fun p hp => h p (by simp [elemsOfList, elemsOfList_append, hp]))
      have h2 := ru_fixed_list rest
        (fun p hp => h p (by simp [elemsOfList, elemsOfList_append, hp]))
      simp [cs_remove_unwanted_list, h1, h2]

end

mutual

theorem ca_elems_node : ∀ (n : Node),
    elemsOfNode (cs_clean_attrs_node n)
      = (elemsOfNode n).map (fun p => (p.1, p.2.filter (cs_keep_attr p.1)))
  | Node.text s => rfl
  | Node.elem t a c => by
      simp [cs_clean_attrs_node, elemsOfNode, ca_elems_list c]

theorem ca_elems_list : ∀ (l : List Node),
    elemsOfList (cs_clean_attrs_list l)
      = (elemsOfList l).map (fun p => (p.1, p.2.filter (cs_keep_attr p.1)))
  | [] => rfl
  | n :: rest => by
      simp [cs_clean_attrs_list, elemsOfList, ca_elems_node n,
        ca_elems_list rest]

end

mutual

theorem ca_idem_node : ∀ (n : Node),
    cs_clean_attrs_node (cs_clean_attrs_node n) = cs_clean_attrs_node n
  | Node.text s => rfl
  | Node.elem t a c => by
      simp only [cs_clean_attrs_node]
      rw [List.filter_filter]
      rw [ca_idem_list c]
      congr 1
      simp only [Bool.and_self]

theorem ca_idem_list : ∀ (l : List Node),
    cs_clean_attrs_list (cs_clean_attrs_list l) = cs_clean_attrs_list l
  | [] => rfl
  | n :: rest => by
      simp only [cs_clean_attrs_list]
      rw [ca_idem_node n, ca_idem_list rest]

end

/-! ### Whitespace-normalization invariants -/

theorem noAdjWs_cons_nonws {a : Char} {l : Str} (ha : isPyWs a = false)
    (hl : noAdjWs l = true) : noAdjWs (a :: l) = true := by
  cases l with
  | nil => rfl
  | cons b t => simp [noAdjWs, ha, hl]

theorem noAdjWs_tail {a : Char} {l : Str} (h : noAdjWs (a :: l) = true) :
    noAdjWs l = true := by
  cases l with
  | nil => rfl
  | cons b t =>
      simp only [noAdjWs, Bool.and_eq_true] at h
      exact h.2

theorem noAdjWs_pair {a b : Char} {l : Str} (h : noAdjWs (a :: b :: l) = true) :
    ¬(isPyWs a = true ∧ isPyWs b = true) := by
  simp only [noAdjWs, Bool.and_eq_true, Bool.not_eq_eq_eq_not, Bool.not_true,
    Bool.and_eq_false_iff] at h
  intro hc
  rcases h.1 with h1 | h1 <;> simp [hc.1, hc.2] at h1

theorem hasGtWsLt_cons {c : Char} {l : Str} :
    hasGtWsLt (c :: l) = (gtTest c l || hasGtWsLt l) := rfl

theorem hasGtWsLt_tail {c : Char} {l : Str}
    (h : hasGtWsLt (c :: l) = false) :
    gtTest c l = false ∧ hasGtWsLt l = false := by
  rw [hasGtWsLt_cons] at h
  exact ⟨by cases hg : gtTest c l <;> simp [hg] at h ⊢,
         by cases hg : hasGtWsLt l <;> simp [hg] at h ⊢⟩

theorem gtTest_of_ws {c : Char} (hc : isPyWs c = true) (l : Str) :
    gtTest c l = false := by
  have : c ≠ '>' := by
    intro hgt
    rw [hgt] at hc
    simp [isPyWs] at hc
  simp [gtTest, this]

theorem gtTest_nonGt {c : Char} (hc : c ≠ '>') (l : Str) :
    gtTest c l = false := by simp [gtTest, hc]

theorem gtTest_gt (rest : Str) : gtTest '>' rest
    = (match rest.dropWhile isPyWs with
       | '<' :: _ => !(rest.takeWhile isPyWs).isEmpty
       | _ => false) := by
  simp [gtTest]

/-- Match-free characterization of the pattern head test. -/
theorem gtTest_eq (c : Char) (rest : Str) :
    gtTest c rest
      = (decide (c = '>') &&
          decide ((rest.dropWhile isPyWs).head? = some '<') &&
          !(rest.takeWhile isPyWs).isEmpty) := by
  by_cases hc : c = '>'
  · subst hc
    rw [gtTest_gt]
    cases hdw : rest.dropWhile isPyWs with
    | nil => simp
    | cons x r =>
        by_cases hx : x = '<'
        · subst hx; simp
        · have h2 : decide ((x :: r).head? = some '<') = false := by
            simp [hx]
          rw [h2]
          split
          · simp_all
          · simp
  · rw [gtTest_nonGt hc]
    simp [hc]

/-- A whitespace-only string contains no `>`-whitespace-`<` pattern. -/
theorem hasGtWsLt_allWs {w : Str} (hw : ∀ c ∈ w, isPyWs c = true) :
    hasGtWsLt w = false := by
  induction w with
  | nil => rfl
  | cons c t ih =>
      rw [hasGtWsLt_cons, gtTest_of_ws (hw c (by simp)),
        ih (fun d hd => hw d (by simp [hd]))]
      rfl

/-- Prepending a whitespace-only string does not affect the pattern test. -/
theorem hasGtWsLt_ws_append {w : Str} (hw : ∀ c ∈ w, isPyWs c = true)
    (l : Str) : hasGtWsLt (w ++ l) = hasGtWsLt l := by
  induction w with
  | nil => rfl
  | cons c t ih =>
      rw [List.cons_append, hasGtWsLt_cons, gtTest_of_ws (hw c (by simp)),
        ih (fun d hd => hw d (by simp [hd]))]
      rfl

theorem dropWhile_append_of_all {p : Char → Bool} {w : Str}
    (hw : ∀ c ∈ w, p c = true) (l : Str) :
    (w ++ l).dropWhile p = l.dropWhile p := by
  induction w with
  | nil => rfl
  | cons c t ih =>
      rw [List.cons_append, List.dropWhile_cons, if_pos (hw c (by simp))]
      exact ih (fun d hd => hw d (by simp [hd]))

mutual

/-- The first normalization pass leaves no `>`-whitespace-`<` pattern
(scanning state: no pending run). -/
theorem nws1_none_clean : ∀ (l : Str), hasGtWsLt (nws1go none l) = false
  | [] => rfl
  | c :: cs => by
      simp only [nws1go]
      by_cases hgt : c = '>'
      · rw [if_pos hgt]
        exact nws1_some_clean cs [] (by simp)
      · rw [if_neg hgt]
        rw [hasGtWsLt_cons, gtTest_nonGt hgt, nws1_none_clean cs]
        rfl

/-- The first normalization pass leaves no `>`-whitespace-`<` pattern after
an emitted `>` followed by the pending whitespace run. -/
theorem nws1_some_clean : ∀ (l run : Str), (∀ c ∈ run, isPyWs c = true) →
    hasGtWsLt ('>' :: nws1go (some run) l) = false
  | [], run => by
      intro hrun
      simp only [nws1go]
      rw [hasGtWsLt_cons]
      have hrev : ∀ c ∈ run.reverse, isPyWs c = true := by
        intro c hc
        exact hrun c (List.mem_reverse.mp hc)
      have h1 : gtTest '>' run.reverse = false := by
        simp only [gtTest]
        rw [List.dropWhile_eq_nil_iff.mpr hrev]
        simp
      rw [h1, hasGtWsLt_allWs hrev]
      rfl
  | c :: cs, run => by
      intro hrun
      simp only [nws1go]
      by_cases hws : isPyWs c = true
      · rw [if_pos hws]
        exact nws1_some_clean cs (c :: run)
          (fun d hd => by
            rcases List.mem_cons.mp hd with h1 | h1
            · rw [h1]; exact hws
            · exact hrun d h1)
      · have hwsf : isPyWs c = false := by simpa using hws
        rw [if_neg hws]
        by_cases hlt : (c = '<' && !run.isEmpty) = true
        · rw [if_pos hlt]
          rw [hasGtWsLt_cons]
          have h1 : gtTest '>' ('<' :: nws1go none cs) = false := by
            simp only [gtTest]
            rw [List.dropWhile_cons]
            simp [isPyWs, List.takeWhile_cons]
          rw [h1, hasGtWsLt_cons, gtTest_nonGt (by simp) _, nws1_none_clean cs]
          rfl
        · rw [if_neg hlt]
          have hrev : ∀ d ∈ run.reverse, isPyWs d = true := by
            intro d hd
            exact hrun d (List.mem_reverse.mp hd)
          rw [hasGtWsLt_cons]
          by_cases hgt : c = '>'
          · subst hgt
            have h1 : gtTest '>'
                (run.reverse ++ ('>' :: nws1go (some []) cs)) = false := by
              simp only [gtTest]
              rw [dropWhile_append_of_all hrev, List.dropWhile_cons]
              simp [isPyWs]
            rw [if_pos rfl, h1, hasGtWsLt_ws_append hrev]
            rw [nws1_some_clean cs [] (by simp)]
            rfl
          · have h1 : gtTest '>'
                (run.reverse ++ (c :: nws1go none cs)) = false := by
              simp only [gtTest]
              rw [dropWhile_append_of_all hrev, List.dropWhile_cons,
                if_neg hws]
              by_cases hc : c = '<'
              · subst hc
                have hrun0 : run = [] := by
                  by_contra hne
                  apply hlt
                  cases run with
                  | nil => exact absurd rfl hne
                  | cons a t => simp
                subst hrun0
                simp [List.takeWhile_cons, isPyWs]
              · split
                · simp_all
                · rfl
            rw [if_neg hgt, h1, hasGtWsLt_ws_append hrev, hasGtWsLt_cons,
              gtTest_nonGt hgt, nws1_none_clean cs]
            rfl

end

theorem nws2_all : ∀ (b : Bool) (l : Str) (c : Char), c ∈ nws2go b l →
    isPyWs c = true → c = ' '
  | b, [], c => by simp [nws2go]
  | b, a :: t, c => by
      intro hc hws
      simp only [nws2go] at hc
      by_cases ha : isPyWs a = true
      · rw [if_pos ha] at hc
        cases b with
        | true => exact nws2_all true t c hc hws
        | false =>
            rw [if_neg Bool.false_ne_true] at hc
            rcases List.mem_cons.mp hc with h1 | h1
            · exact h1
            · exact nws2_all true t c h1 hws
      · rw [if_neg ha] at hc
        rcases List.mem_cons.mp hc with h1 | h1
        · rw [h1] at hws; exact absurd hws ha
        · exact nws2_all false t c h1 hws

theorem nws2_true_head : ∀ (l : Str) (c : Char) (cs : Str),
    nws2go true l = c :: cs → isPyWs c = false
  | [], c, cs => by intro h; cases h
  | a :: t, c, cs => by
      intro h
      simp only [nws2go] at h
      by_cases ha : isPyWs a = true
      · rw [if_pos ha] at h
        exact nws2_true_head t c cs h
      · rw [if_neg ha] at h
        injection h with h1 _
        rw [← h1]
        simpa using ha

theorem nws2_adj : ∀ (b : Bool) (l : Str), noAdjWs (nws2go b l) = true
  | b, [] => by cases b <;> rfl
  | b, a :: t => by
      simp only [nws2go]
      by_cases ha : isPyWs a = true
      · rw [if_pos ha]
        cases b with
        | true => exact nws2_adj true t
        | false =>
            rw [if_neg Bool.false_ne_true]
            cases hX : nws2go true t with
            | nil => rfl
            | cons c cs =>
                have hc : isPyWs c = false := nws2_true_head t c cs hX
                have := nws2_adj true t
                rw [hX] at this
                simp [noAdjWs, hc, this]
      · rw [if_neg ha]
        have haf : isPyWs a = false := by simpa using ha
        exact noAdjWs_cons_nonws haf (nws2_adj false t)

theorem nws2_true_head_src : ∀ (u : Str) (d : Char) (cs : Str),
    nws2go true u = d :: cs → (u.dropWhile isPyWs).head? = some d
  | [], d, cs => by intro h; cases h
  | a :: t, d, cs => by
      intro h
      simp only [nws2go] at h
      by_cases ha : isPyWs a = true
      · rw [if_pos ha] at h
        rw [List.dropWhile_cons, if_pos ha]
        exact nws2_true_head_src t d cs h
      · rw [if_neg ha] at h
        injection h with h1 _
        rw [List.dropWhile_cons, if_neg ha, ← h1]
        rfl

theorem nws2_false_ws_head : ∀ (t : Str) (x : Char) (xs : Str),
    nws2go false t = x :: xs → isPyWs x = true →
      ∃ w t', t = w :: t' ∧ isPyWs w = true ∧ x = ' ' ∧ xs = nws2go true t'
  | [], x, xs => by intro h; cases h
  | a :: t', x, xs => by
      intro h hx
      simp only [nws2go] at h
      by_cases ha : isPyWs a = true
      · rw [if_pos ha, if_neg Bool.false_ne_true] at h
        injection h with h1 h2
        exact ⟨a, t', rfl, ha, h1.symm, h2.symm⟩
      · rw [if_neg ha] at h
        injection h with h1 _
        rw [← h1] at hx
        exact absurd hx ha

theorem nws2_clean : ∀ (l : Str) (b : Bool), hasGtWsLt l = false →
    hasGtWsLt (nws2go b l) = false
  | [], b => by intro _; cases b <;> rfl
  | a :: t, b => by
      intro h
      obtain ⟨hga, hgt⟩ := hasGtWsLt_tail h
      simp only [nws2go]
      by_cases ha : isPyWs a = true
      · rw [if_pos ha]
        cases b with
        | true => exact nws2_clean t true hgt
        | false =>
            rw [if_neg Bool.false_ne_true, hasGtWsLt_cons,
              gtTest_of_ws (by simp [isPyWs]), nws2_clean t true hgt]
            rfl
      · rw [if_neg ha]
        rw [hasGtWsLt_cons, nws2_clean t false hgt]
        by_cases hgtc : a = '>'
        · subst hgtc
          have hX : gtTest '>' (nws2go false t) = false := by
            cases hXe : nws2go false t with
            | nil => simp [gtTest]
            | cons x xs =>
                by_cases hx : isPyWs x = true
                · obtain ⟨w, t', ht, hw, hxsp, hxs⟩ :=
                    nws2_false_ws_head t x xs hXe hx
                  subst hxsp
                  subst hxs
                  cases hY : nws2go true t' with
                  | nil =>
                      simp only [gtTest, List.dropWhile_cons, hY]
                      simp [isPyWs]
                  | cons y ys =>
                      have hy : isPyWs y = false := nws2_true_head t' y ys hY
                      by_cases hylt : y = '<'
                      · exfalso
                        subst hylt
                        have hsrc := nws2_true_head_src t' '<' ys hY
                        rw [ht] at hga
                        have : gtTest '>' (w :: t') = true := by
                          simp only [gtTest, if_pos rfl]
                          rw [List.dropWhile_cons, if_pos hw]
                          cases hdw : t'.dropWhile isPyWs with
                          | nil => rw [hdw] at hsrc; cases hsrc
                          | cons z zs =>
                              rw [hdw] at hsrc
                              injection hsrc with hz
                              subst hz
                              simp [List.takeWhile_cons, hw]
                        rw [this] at hga
                        cases hga
                      · simp only [gtTest, if_pos rfl, hY, List.dropWhile_cons,
                          if_pos (by simp [isPyWs] : isPyWs ' ' = true),
                          if_neg (by simp [hy] : ¬isPyWs y = true)]
                        split
                        · simp_all
                        · rfl
                · have hxf : isPyWs x = false := by simpa using hx
                  simp only [gtTest, if_pos rfl, List.dropWhile_cons, hXe,
                    if_neg hx]
                  by_cases hxlt : x = '<'
                  · subst hxlt
                    simp [List.takeWhile_cons, isPyWs]
                  · split
                    · simp_all
                    · rfl
          rw [hX]
          rfl
        · rw [gtTest_nonGt hgtc]
          rfl

theorem nws3_mem : ∀ (run l : Str) (c : Char), c ∈ nws3go run l →
    c ∈ run ∨ c ∈ l
  | run, [], c => by
      intro h
      simp only [nws3go] at h
      exact Or.inl (List.mem_reverse.mp h)
  | run, a :: t, c => by
      intro h
      simp only [nws3go] at h
      by_cases ha : isPyWs a = true
      · rw [if_pos ha] at h
        rcases nws3_mem (a :: run) t c h with h1 | h1
        · rcases List.mem_cons.mp h1 with h2 | h2
          · exact Or.inr (by simp [h2])
          · exact Or.inl h2
        · exact Or.inr (by simp [h1])
      · rw [if_neg ha] at h
        by_cases hgt : a = '>'
        · rw [if_pos hgt] at h
          rcases List.mem_cons.mp h with h1 | h1
          · exact Or.inr (by simp [h1, hgt])
          · rcases nws3_mem [] t c h1 with h2 | h2
            · simp at h2
            · exact Or.inr (by simp [h2])
        · rw [if_neg hgt] at h
          rcases List.mem_append.mp h with h1 | h1
          · exact Or.inl (List.mem_reverse.mp h1)
          · rcases List.mem_cons.mp h1 with h2 | h2
            · exact Or.inr (by simp [h2])
            · rcases nws3_mem [] t c h2 with h3 | h3
              · simp at h3
              · exact Or.inr (by simp [h3])

theorem nws3_adj : ∀ (l run : Str), noAdjWs l = true →
    (run = [] ∨ ∃ w, run = [w] ∧ isPyWs w = true ∧
      (∀ d, l.head? = some d → isPyWs d = false)) →
    noAdjWs (nws3go run l) = true
  | [], run => by
      intro _ hrun
      simp only [nws3go]
      rcases hrun with h | ⟨w, hw, _, _⟩
      · rw [h]; rfl
      · rw [hw]; rfl
  | c :: cs, run => by
      intro hadj hrun
      simp only [nws3go]
      by_cases hws : isPyWs c = true
      · rw [if_pos hws]
        have hrun0 : run = [] := by
          rcases hrun with h | ⟨w, hw, hwws, hhead⟩
          · exact h
          · exact absurd hws (by simp [hhead c rfl])
        subst hrun0
        apply nws3_adj cs [c] (noAdjWs_tail hadj)
        refine Or.inr ⟨c, rfl, hws, ?_⟩
        intro d hd
        cases cs with
        | nil => cases hd
        | cons d0 cs0 =>
            injection hd with hd0
            subst hd0
            have := noAdjWs_pair hadj
            by_contra hws2
            exact this ⟨hws, by simpa using hws2⟩
      · rw [if_neg hws]
        have hwsf : isPyWs c = false := by simpa using hws
        by_cases hgt : c = '>'
        · rw [if_pos hgt]
          apply noAdjWs_cons_nonws (by simp [hgt, isPyWs])
          exact nws3_adj cs [] (noAdjWs_tail hadj) (Or.inl rfl)
        · rw [if_neg hgt]
          have hrest : noAdjWs (c :: nws3go [] cs) = true :=
            noAdjWs_cons_nonws hwsf
              (nws3_adj cs [] (noAdjWs_tail hadj) (Or.inl rfl))
          rcases hrun with h | ⟨w, hw, hwws, _⟩
          · rw [h]
            simpa using hrest
          · rw [hw]
            simp only [List.reverse_singleton, List.singleton_append]
            cases hX : nws3go [] cs with
            | nil => simp [noAdjWs, hwsf]
            | cons x xs =>
                rw [hX] at hrest
                have h1 : noAdjWs (w :: c :: x :: xs)
                    = ((!(isPyWs w && isPyWs c)) && noAdjWs (c :: x :: xs)) := rfl
                rw [h1, hwsf, hrest]
                simp

mutual

/-- The third pass introduces no `>`-whitespace-`<` pattern, starting from a
pending run compatible with the adjacency invariant. -/
theorem nws3_clean : ∀ (l run : Str), noAdjWs l = true →
    hasGtWsLt l = false →
    (run = [] ∨ ∃ w, run = [w] ∧ isPyWs w = true ∧
      (∀ d, l.head? = some d → isPyWs d = false)) →
    hasGtWsLt (nws3go run l) = false
  | [], run => by
      intro _ _ hrun
      simp only [nws3go]
      rcases hrun with h | ⟨w, hw, hwws, _⟩
      · rw [h]; rfl
      · rw [hw]
        simp only [List.reverse_singleton]
        rw [hasGtWsLt_cons, gtTest_of_ws hwws]
        rfl
  | c :: cs, run => by
      intro hadj hcl hrun
      obtain ⟨hga, hgt⟩ := hasGtWsLt_tail hcl
      simp only [nws3go]
      by_cases hws : isPyWs c = true
      · rw [if_pos hws]
        have hrun0 : run = [] := by
          rcases hrun with h | ⟨w, hw, hwws, hhead⟩
          · exact h
          · exact absurd hws (by simp [hhead c rfl])
        subst hrun0
        apply nws3_clean cs [c] (noAdjWs_tail hadj) hgt
        refine Or.inr ⟨c, rfl, hws, ?_⟩
        intro d hd
        cases cs with
        | nil => cases hd
        | cons d0 cs0 =>
            injection hd with hd0
            subst hd0
            have := noAdjWs_pair hadj
            by_contra hws2
            exact this ⟨hws, by simpa using hws2⟩
      · rw [if_neg hws]
        by_cases hgtc : c = '>'
        · rw [if_pos hgtc]
          subst hgtc
          exact nws3_clean_gt cs (noAdjWs_tail hadj) hgt hga
        · rw [if_neg hgtc]
          have hrev : ∀ d ∈ run.reverse, isPyWs d = true := by
            rcases hrun with h | ⟨w, hw, hwws, _⟩
            · rw [h]; intro d hd; simp at hd
            · rw [hw]
              intro d hd
              simp only [List.reverse_singleton, List.mem_singleton] at hd
              rw [hd]; exact hwws
          rw [hasGtWsLt_ws_append hrev, hasGtWsLt_cons, gtTest_nonGt hgtc,
            nws3_clean cs [] (noAdjWs_tail hadj) hgt (Or.inl rfl)]
          rfl
termination_by l run => (l.length, 0)

/-- The third pass introduces no `>`-whitespace-`<` pattern after an emitted
`>` whose own pattern test failed on the input. -/
theorem nws3_clean_gt (l : Str) (hadj : noAdjWs l = true)
    (hcl : hasGtWsLt l = false) (hgtl : gtTest '>' l = false) :
    hasGtWsLt ('>' :: nws3go [] l) = false := by
  rw [hasGtWsLt_cons]
  have h2 : hasGtWsLt (nws3go [] l) = false :=
    nws3_clean l [] hadj hcl (Or.inl rfl)
  have h1 : gtTest '>' (nws3go [] l) = false := by
    cases l with
    | nil => rfl
    | cons a ls =>
        simp only [nws3go]
        by_cases ha : isPyWs a = true
        · rw [if_pos ha]
          cases ls with
          | nil =>
              simp only [nws3go, List.reverse_singleton]
              rw [gtTest_gt, List.dropWhile_cons, if_pos ha]
              simp
          | cons d ls2 =>
              have hd : isPyWs d = false := by
                have := noAdjWs_pair hadj
                by_contra hd2
                exact this ⟨ha, by simpa using hd2⟩
              simp only [nws3go]
              rw [if_neg (by simp [hd])]
              by_cases hdgt : d = '>'
              · rw [if_pos hdgt]
                rw [gtTest_gt, List.dropWhile_cons, if_neg (by decide)]
                rfl
              · rw [if_neg hdgt]
                have hdlt : d ≠ '<' := by
                  intro hdl
                  rw [gtTest_gt, List.dropWhile_cons, if_pos ha, hdl,
                    List.dropWhile_cons, if_neg (by decide)] at hgtl
                  rw [List.takeWhile_cons, if_pos ha] at hgtl
                  simp at hgtl
                simp only [List.reverse_singleton, List.singleton_append]
                rw [gtTest_gt, List.dropWhile_cons, if_pos ha,
                  List.dropWhile_cons, if_neg (by simp [hd])]
                split
                · simp_all
                · rfl
        · rw [if_neg ha]
          by_cases hagt : a = '>'
          · rw [if_pos hagt]
            rw [gtTest_gt, List.dropWhile_cons, if_neg (by decide)]
            rfl
          · rw [if_neg hagt]
            rw [gtTest_gt]
            simp only [List.reverse_nil, List.nil_append]
            rw [List.dropWhile_cons, if_neg ha]
            by_cases halt : a = '<'
            · subst halt
              rw [List.takeWhile_cons, if_neg (by decide)]
              rfl
            · split
              · simp_all
              · rfl
  rw [h1, h2]
  rfl
termination_by (l.length, 1)

end

theorem noAdjWs_append_right : ∀ (t s : Str),
    noAdjWs (t ++ s) = true → noAdjWs s = true
  | [], s, h => h
  | a :: t, s, h => noAdjWs_append_right t s (noAdjWs_tail h)

theorem noAdjWs_append_left : ∀ (t s : Str),
    noAdjWs (t ++ s) = true → noAdjWs t = true
  | [], _, _ => rfl
  | [a], _, _ => rfl
  | a :: b :: t, s, h => by
      have hp := @noAdjWs_pair a b (t ++ s) h
      have hr := noAdjWs_append_left (b :: t) s (noAdjWs_tail h)
      show (!(isPyWs a && isPyWs b) && noAdjWs (b :: t)) = true
      have h1 : (!(isPyWs a && isPyWs b)) = true := by
        cases hwa : isPyWs a <;> cases hwb : isPyWs b <;> simp_all
      simp [h1, hr]

theorem hasGtWsLt_append_right : ∀ (t s : Str),
    hasGtWsLt (t ++ s) = false → hasGtWsLt s = false
  | [], s, h => h
  | a :: t, s, h => hasGtWsLt_append_right t s (hasGtWsLt_tail h).2

theorem dropWhile_append_of_ne_nil {p : Char → Bool} :
    ∀ {t : Str} (s : Str), t.dropWhile p ≠ [] →
      (t ++ s).dropWhile p = t.dropWhile p ++ s
  | [], s, h => absurd rfl h
  | c :: t, s, h => by
      rw [List.cons_append, List.dropWhile_cons, List.dropWhile_cons]
      by_cases hc : p c = true
      · rw [if_pos hc, if_pos hc]
        rw [List.dropWhile_cons, if_pos hc] at h
        exact dropWhile_append_of_ne_nil s h
      · rw [if_neg hc, if_neg hc]
        rfl

theorem takeWhile_append_of_ne_nil {p : Char → Bool} :
    ∀ {t : Str} (s : Str), t.dropWhile p ≠ [] →
      (t ++ s).takeWhile p = t.takeWhile p
  | [], s, h => absurd rfl h
  | c :: t, s, h => by
      rw [List.cons_append, List.takeWhile_cons, List.takeWhile_cons]
      by_cases hc : p c = true
      · rw [if_pos hc, if_pos hc]
        rw [List.dropWhile_cons, if_pos hc] at h
        rw [takeWhile_append_of_ne_nil s h]
      · rw [if_neg hc, if_neg hc]

theorem gtTest_append {a : Char} {t : Str} (s : Str)
    (h : gtTest a t = true) : gtTest a (t ++ s) = true := by
  rw [gtTest_eq] at h ⊢
  simp only [Bool.and_eq_true, decide_eq_true_eq] at h ⊢
  obtain ⟨⟨h1, h2⟩, h3⟩ := h
  have hne : t.dropWhile isPyWs ≠ [] := by
    intro hnil
    rw [hnil] at h2
    cases h2
  rw [dropWhile_append_of_ne_nil s hne, takeWhile_append_of_ne_nil s hne]
  refine ⟨⟨h1, ?_⟩, h3⟩
  cases hdw : t.dropWhile isPyWs with
  | nil => exact absurd hdw hne
  | cons x r =>
      rw [hdw] at h2
      rw [List.cons_append]
      simpa using h2

theorem hasGtWsLt_append_left : ∀ (t s : Str),
    hasGtWsLt (t ++ s) = false → hasGtWsLt t = false
  | [], _, _ => rfl
  | a :: t, s, h => by
      obtain ⟨h1, h2⟩ := hasGtWsLt_tail h
      rw [hasGtWsLt_cons, hasGtWsLt_append_left t s h2]
      have h3 : gtTest a t = false := by
        by_contra hc
        have hat : gtTest a t = true := by
          cases hg : gtTest a t
          · exact absurd hg hc
          · rfl
        have h1a : gtTest a (t ++ s) = false := h1
        rw [gtTest_append s hat] at h1a
        cases h1a
      rw [h3]
      rfl

/-- `str.strip()` keeps a contiguous middle part of its input. -/
theorem pystrip_decomp (l : Str) : ∃ t u, l = t ++ (pystrip l ++ u) := by
  refine ⟨l.takeWhile isPyWs,
    ((l.dropWhile isPyWs).reverse.takeWhile isPyWs).reverse, ?_⟩
  unfold pystrip
  conv_lhs => rw [← List.takeWhile_append_dropWhile isPyWs l]
  congr 1
  conv_lhs => rw [← List.reverse_reverse (l.dropWhile isPyWs)]
  conv_lhs =>
    rw [← List.takeWhile_append_dropWhile isPyWs (l.dropWhile isPyWs).reverse]
  rw [List.reverse_append]

/-- The string pipeline of `_normalize_whitespace` followed by `strip`
produces output with single-space whitespace only, no adjacent whitespace,
and no whitespace left between `>` and `<`. -/
theorem normalize_strip_props (s : Str) :
    (∀ c ∈ pystrip (normalize_whitespace s), isPyWs c = true → c = ' ')
    ∧ noAdjWs (pystrip (normalize_whitespace s)) = true
    ∧ hasGtWsLt (pystrip (normalize_whitespace s)) = false := by
  have hB1 : ∀ c ∈ nws2 (nws1 s), isPyWs c = true → c = ' ' :=
    fun c hc => nws2_all false (nws1 s) c hc
  have hB2 : noAdjWs (nws2 (nws1 s)) = true := nws2_adj false (nws1 s)
  have hB3 : hasGtWsLt (nws2 (nws1 s)) = false :=
    nws2_clean (nws1 s) false (nws1_none_clean s)
  have hC1 : ∀ c ∈ nws3 (nws2 (nws1 s)), isPyWs c = true → c = ' ' := by
    intro c hc hw
    rcases nws3_mem [] (nws2 (nws1 s)) c hc with h | h
    · simp at h
    · exact hB1 c h hw
  have hC2 : noAdjWs (nws3 (nws2 (nws1 s))) = true :=
    nws3_adj (nws2 (nws1 s)) [] hB2 (Or.inl rfl)
  have hC3 : hasGtWsLt (nws3 (nws2 (nws1 s))) = false :=
    nws3_clean (nws2 (nws1 s)) [] hB2 hB3 (Or.inl rfl)
  obtain ⟨t, u, hdec⟩ := pystrip_decomp (nws3 (nws2 (nws1 s)))
  have hnorm : normalize_whitespace s = nws3 (nws2 (nws1 s)) := rfl
  rw [hnorm]
  refine ⟨?_, ?_, ?_⟩
  · intro c hc hw
    apply hC1 c _ hw
    rw [hdec]
    simp [hc]
  · have h1 := noAdjWs_append_right t _ (by rw [← hdec]; exact hC2)
    exact noAdjWs_append_left _ u h1
  · have h1 := hasGtWsLt_append_right t _ (by rw [← hdec]; exact hC3)
    exact hasGtWsLt_append_left _ u h1

theorem isPrefixOf_ex : ∀ (pat l : Str), pat.isPrefixOf l = true →
    ∃ t, l = pat ++ t
  | [], l, _ => ⟨l, rfl⟩
  | a :: pat, [], h => by cases h
  | a :: pat, b :: l, h => by
      simp only [List.isPrefixOf_cons₂] at h
      obtain ⟨hab, hrest⟩ := Bool.and_eq_true_iff.mp h
      obtain ⟨t, ht⟩ := isPrefixOf_ex pat l hrest
      have hab2 : a = b := by simpa using hab
      exact ⟨t, by rw [ht, hab2]; rfl⟩

theorem matchLit_append {pat l r : Str} (h : matchLit pat l = some r) :
    pat ++ r = l := by
  simp only [matchLit] at h
  split at h
  · rename_i hp
    injection h with h1
    obtain ⟨t, ht⟩ := isPrefixOf_ex pat l hp
    subst ht
    rw [← h1, List.drop_left]
  · cases h

theorem matchDelim_append {l d rest : Str}
    (h : matchDelim l = some (d, rest)) : d ++ rest = l := by
  match l with
  | [] => cases h
  | c :: cs =>
      by_cases hnl : c = '\n'
      · subst hnl
        simp only [matchDelim] at h
        split at h
        · injection h with h1
          injection h1 with hd hr
          subst hd
          subst hr
          simp [List.take_append_drop]
        · cases h
      · by_cases hlt : c = '<'
        · subst hlt
          simp only [matchDelim] at h
          cases hm1 : matchLit (chars ("/p>")) cs with
          | some r2 =>
              rw [hm1] at h
              simp only [] at h
              cases hm2 : matchLit (chars ("<p>")) (r2.dropWhile isPyWs) with
              | some r4 =>
                  rw [hm2] at h
                  injection h with h1
                  injection h1 with hd hr
                  subst hd
                  subst hr
                  have e1 := matchLit_append hm1
                  have e2 := matchLit_append hm2
                  have e3 : r2.takeWhile isPyWs ++ r2.dropWhile isPyWs = r2 :=
                    List.takeWhile_append_dropWhile isPyWs r2
                  conv_rhs => rw [← e1]
                  conv_rhs => rw [← e3]
                  conv_rhs => rw [← e2]
                  simp only [List.append_assoc]
                  rfl
              | none =>
                  rw [hm2] at h
                  injection h with h1
                  injection h1 with hd hr
                  subst hd
                  subst hr
                  have e1 := matchLit_append hm1
                  conv_rhs => rw [← e1]
                  rfl
          | none =>
              rw [hm1] at h
              simp only [] at h
              cases hm3 : matchLit (chars ("p>")) cs with
              | some r2 =>
                  rw [hm3] at h
                  injection h with h1
                  injection h1 with hd hr
                  subst hd
                  subst hr
                  have e1 := matchLit_append hm3
                  conv_rhs => rw [← e1]
                  rfl
              | none => rw [hm3] at h; cases h
        · have : matchDelim (c :: cs) = none := by
            simp only [matchDelim]
            split
            · rename_i heq
              exfalso
              apply hnl
              injection heq
            · rename_i heq
              exfalso
              apply hlt
              injection heq
            · rfl
          rw [this] at h
          cases h

theorem splitParasGo_flatten : ∀ (fuel : Nat) (acc l : Str),
    (splitParasGo fuel acc l).flatten = acc.reverse ++ l
  | fuel, acc, [] => by
      cases fuel <;> simp [splitParasGo]
  | 0, acc, c :: cs => by simp [splitParasGo]
  | fuel + 1, acc, c :: cs => by
      simp only [splitParasGo]
      cases hm : matchDelim (c :: cs) with
      | none =>
          rw [splitParasGo_flatten fuel (c :: acc) cs]
          simp
      | some p =>
          obtain ⟨d, rest⟩ := p
          simp only [List.flatten_cons]
          rw [splitParasGo_flatten fuel [] rest]
          simp only [List.reverse_nil, List.nil_append]
          rw [matchDelim_append hm]

/-- The `re.split` pieces concatenate back to the input (the delimiter is one
capture group, so it is kept). -/
theorem splitParas_flatten (l : Str) : (splitParas l).flatten = l :=
  splitParasGo_flatten l.length [] l

theorem filter_nonws_dropWhile (l : Str) :
    (l.dropWhile isPyWs).filter (fun c => !isPyWs c)
      = l.filter (fun c => !isPyWs c) := by
  induction l with
  | nil => rfl
  | cons c cs ih =>
      rw [List.dropWhile_cons]
      by_cases hc : isPyWs c = true
      · rw [if_pos hc, ih, List.filter_cons_of_neg (by simp [hc])]
      · rw [if_neg hc]

/-- Stripping only removes whitespace: the non-whitespace content is
unchanged. -/
theorem filter_nonws_pystrip (l : Str) :
    (pystrip l).filter (fun c => !isPyWs c)
      = l.filter (fun c => !isPyWs c) := by
  unfold pystrip
  rw [List.filter_reverse, filter_nonws_dropWhile, List.filter_reverse,
    List.reverse_reverse, filter_nonws_dropWhile]

theorem splitLoop_filter (wps : Int) : ∀ (ps sections : List Str)
    (current : Str) (count : Nat),
    ((splitLoop wps ps sections current count).flatten).filter
        (fun c => !isPyWs c)
      = ((sections.flatten ++ current) ++ ps.flatten).filter
        (fun c => !isPyWs c)
  | [], sections, current, count => by
      simp only [splitLoop]
      by_cases he : pystrip current = []
      · rw [if_pos he]
        have hc : current.filter (fun c => !isPyWs c) = [] := by
          rw [← filter_nonws_pystrip, he]
          rfl
        simp [List.filter_append, hc]
      · rw [if_neg he]
        simp [List.filter_append, filter_nonws_pystrip]
  | p :: ps, sections, current, count => by
      simp only [splitLoop]
      by_cases hs : isSkipPiece p = true
      · rw [if_pos hs, splitLoop_filter wps ps sections (current ++ p) count]
        simp [List.filter_append, List.append_assoc]
      · rw [if_neg hs]
        by_cases hfull : (0 < count &&
            decide ((wps : Int) < (count : Int) +
              (((wordRuns p).length : Nat) : Int))) = true
        · rw [if_pos hfull,
            splitLoop_filter wps ps (sections ++ [pystrip current]) p
              ((wordRuns p).length)]
          simp [List.filter_append, List.append_assoc, filter_nonws_pystrip]
        · rw [if_neg hfull,
            splitLoop_filter wps ps sections (current ++ p)
              (count + (wordRuns p).length)]
          simp [List.filter_append, List.append_assoc]

/-- Splitting loses exactly (boundary) whitespace: the concatenated sections
carry the same non-whitespace characters, in order, as the input. -/
theorem split_content_filter (content : Str) (wps : Int) :
    ((split_content_by_words content wps).flatten).filter (fun c => !isPyWs c)
      = content.filter (fun c => !isPyWs c) := by
  unfold split_content_by_words
  rw [splitLoop_filter]
  simp only [List.flatten_nil, List.nil_append, List.append_nil]
  rw [splitParas_flatten]

theorem asmStep_resets_ge (search : Str → List Image)
    (getUrl : Str → Option Str)
    (wp : Option (Str → Str → Option (Option Str))) (pick : Nat)
    (keyword : Str) (st : AsmState) :
    st.resets ≤ (asmStep search getUrl wp pick keyword st).resets := by
  unfold asmStep
  by_cases hi : (search keyword).isEmpty = true
  · rw [if_pos hi]
  · rw [if_neg hi]
    cases hres : (select_unique_image pick (search keyword) st.used_ids).1 with
    | none => simp [hres]
    | some image =>
        simp only [hres]
        cases hurl : getUrl image.id with
        | none => simp
        | some image_url => simp

theorem asmLoop_resets_ge (search : Str → List Image)
    (getUrl : Str → Option Str)
    (wp : Option (Str → Str → Option (Option Str))) (picks : Nat → Nat)
    (keywords : List Str) (total : Nat) :
    ∀ (secs : List Str) (i : Nat) (st : AsmState),
      st.resets ≤ (asmLoop search getUrl wp picks keywords total secs i st).resets
  | [], i, st => Nat.le_refl _
  | sec :: rest, i, st => by
      simp only [asmLoop]
      by_cases hb : i + 1 < total
      · rw [if_pos hb]
        have h1 := asmStep_resets_ge search getUrl wp (picks i)
          (keywords.getD (i % keywords.length) [])
          { st with modified := st.modified ++ sec }
        have h2 := asmLoop_resets_ge search getUrl wp picks keywords total
          rest (i + 1)
          (asmStep search getUrl wp (picks i)
            (keywords.getD (i % keywords.length) [])
            { st with modified := st.modified ++ sec })
        have h0 : ({ st with modified := st.modified ++ sec } : AsmState).resets
            = st.resets := rfl
        omega
      · rw [if_neg hb]
        have h2 := asmLoop_resets_ge search getUrl wp picks keywords total
          rest (i + 1) { st with modified := st.modified ++ sec }
        have h0 : ({ st with modified := st.modified ++ sec } : AsmState).resets
            = st.resets := rfl
        omega

theorem asmStep_inv (search : Str → List Image) (getUrl : Str → Option Str)
    (wp : Option (Str → Str → Option (Option Str))) (pick : Nat)
    (keyword : Str) (st : AsmState) (hinv : AsmInv st)
    (hres : (asmStep search getUrl wp pick keyword st).resets = st.resets) :
    AsmInv (asmStep search getUrl wp pick keyword st) := by
  unfold asmStep at hres ⊢
  by_cases hi : (search keyword).isEmpty = true
  · rw [if_pos hi]
    exact hinv
  · rw [if_neg hi] at hres ⊢
    simp only [] at hres ⊢
    have hne : search keyword ≠ [] := by
      intro hn
      exact hi (List.isEmpty_iff.mpr hn)
    by_cases hfe : ((search keyword).filter
        (fun img => decide (img.id ∉ st.used_ids))).isEmpty = true
    · exfalso
      rw [if_pos hfe] at hres
      revert hres
      cases hsel : (select_unique_image pick (search keyword) st.used_ids).1 with
      | none => simp [hsel]
      | some image =>
          cases hurl : getUrl image.id with
          | none => simp [hsel, hurl]
          | some image_url => simp [hsel, hurl]
    · rw [if_neg hfe] at hres ⊢
      obtain ⟨image, hsel⟩ :=
        select_some_of_ne_nil pick (search keyword) st.used_ids hne
      have hspec := select_unique_spec pick (search keyword) st.used_ids hne
        image hsel
      have hex : ∃ j ∈ search keyword, j.id ∉ st.used_ids := by
        have : (search keyword).filter
            (fun img => decide (img.id ∉ st.used_ids)) ≠ [] := by
          intro hn
          exact hfe (List.isEmpty_iff.mpr hn)
        obtain ⟨j, hj⟩ := List.exists_mem_of_ne_nil _ this
        have := List.mem_filter.mp hj
        exact ⟨j, this.1, by simpa using this.2⟩
      obtain ⟨himg, hidmem, hunused, _⟩ := hspec
      obtain ⟨hnotused, hupd⟩ := hunused hex
      rw [hsel]
      simp only []
      cases hurl : getUrl image.id with
      | none =>
          simp only [hurl]
          refine ⟨hinv.1, ?_⟩
          intro id hid
          rw [hupd]
          exact List.mem_insert_of_mem (hinv.2 id hid)
      | some image_url =>
          simp only [hurl]
          constructor
          · have hnotemb : image.id ∉ st.embedded_ids := by
              intro hmem
              exact hnotused (hinv.2 _ hmem)
            simp [List.nodup_append, hinv.1, hnotemb]
          · intro id hid
            rw [hupd]
            rcases List.mem_append.mp hid with h1 | h1
            · exact List.mem_insert_of_mem (hinv.2 id h1)
            · rw [List.mem_singleton.mp h1]
              exact List.mem_insert_self _ _

theorem asmLoop_inv (search : Str → List Image) (getUrl : Str → Option Str)
    (wp : Option (Str → Str → Option (Option Str))) (picks : Nat → Nat)
    (keywords : List Str) (total : Nat) :
    ∀ (secs : List Str) (i : Nat) (st : AsmState), AsmInv st →
      (asmLoop search getUrl wp picks keywords total secs i st).resets
        = st.resets →
      AsmInv (asmLoop search getUrl wp picks keywords total secs i st)
  | [], i, st, hinv, _ => hinv
  | sec :: rest, i, st, hinv, hres => by
      simp only [asmLoop] at hres ⊢
      have hinv1 : AsmInv { st with modified := st.modified ++ sec } :=
        ⟨hinv.1, hinv.2⟩
      by_cases hb : i + 1 < total
      · rw [if_pos hb] at hres ⊢
        set st1 := { st with modified := st.modified ++ sec } with hst1
        have h1 := asmStep_resets_ge search getUrl wp (picks i)
          (keywords.getD (i % keywords.length) []) st1
        have h2 := asmLoop_resets_ge search getUrl wp picks keywords total
          rest (i + 1)
          (asmStep search getUrl wp (picks i)
            (keywords.getD (i % keywords.length) []) st1)
        have hre : st1.resets = st.resets := rfl
        have hsteq : (asmStep search getUrl wp (picks i)
            (keywords.getD (i % keywords.length) []) st1).resets
            = st1.resets := by
          omega
        apply asmLoop_inv search getUrl wp picks keywords total rest (i + 1) _
          (asmStep_inv _ _ _ _ _ _ hinv1 hsteq)
        omega
      · rw [if_neg hb] at hres ⊢
        exact asmLoop_inv search getUrl wp picks keywords total rest (i + 1)
          _ hinv1 hres

/-- Every attribute surviving `sanitize_content`'s document transform is in
the per-tag allowed list of its element. -/
theorem csCleanDoc_attr_closure (d : Doc) :
    ∀ p ∈ docElems (csCleanDoc d), ∀ q ∈ p.2, q.1 ∈ cs_allowed_attributes p.1 := by
  intro p hp q hq
  unfold docElems csCleanDoc at hp
  rw [ca_elems_list] at hp
  obtain ⟨r, hr, hpr⟩ := List.mem_map.mp hp
  subst hpr
  have hmem := List.of_mem_filter hq
  unfold cs_keep_attr at hmem
  obtain ⟨h1, _⟩ := Bool.and_eq_true_iff.mp hmem
  exact of_decide_eq_true h1

/-! ## Claims -/

/-- C1, counterexample: `HTMLCleaner.clean_html` is not idempotent.  On
`<p>a sty style="q"le="b"</p>` the `style=` regex pass removes ` style="q"`
from the text, and `re.sub` does not rescan the junction, so the first run
returns `<p>a style="b"</p>`; the second run removes ` style="b"` and
returns `<p>a</p>`. -/
theorem C1_clean_html_not_idempotent :
    clean_html parse_fix_c1 (clean_html parse_fix_c1
        (chars ("<p>a sty style=\"q\"le=\"b\"</p>")))
      ≠ clean_html parse_fix_c1 (chars ("<p>a sty style=\"q\"le=\"b\"</p>")) := by
  decide

/-- C1, amended: `ContentSanitizer.sanitize_content`'s document transform
(unwrap disallowed tags, then strip disallowed and `data-` attributes) is
idempotent; `HTMLCleaner.clean_html` is not (see the counterexample). -/
theorem C1_sanitize_content_doc_idempotent (d : Doc) :
    csCleanDoc (csCleanDoc d) = csCleanDoc d := by
  unfold csCleanDoc
  have h1 : ∀ p ∈ elemsOfList (cs_clean_attrs_list (cs_remove_unwanted_list d)),
      p.1 ∈ cs_allowed_tags := by
    intro p hp
    rw [ca_elems_list] at hp
    obtain ⟨q, hq, hpq⟩ := List.mem_map.mp hp
    subst hpq
    exact ru_tags_list d q hq
  rw [ru_fixed_list _ h1, ca_idem_list]

/-- C2, failing evaluation: `HTMLCleaner.clean_html` violates whitelist
closure.  `_clean_element(soup)` is invoked on the soup root, whose name
`[document]` is not in `allowed_tags`; `unwrap()` raises (no parent),
`extract()` is a no-op, and the method returns before recursing, so the tree
pass cleans nothing and only the regex fallback (style/class/id/data-*)
runs: a `script` element and an `onclick` attribute both survive. -/
theorem C2_clean_html_whitelist_violation :
    clean_html parse_fix_c2 (chars ("<script>alert(1)</script>"))
      = chars ("<script>alert(1)</script>")
    ∧ ("script" : String) ∉ hc_allowed_tags
    ∧ clean_html parse_fix_c2 (chars ("<p onclick=\"evil()\">hi</p>"))
      = chars ("<p onclick=\"evil()\">hi</p>")
    ∧ ("onclick" : String) ∈ hc_forbidden_attributes := by
  decide

/-- C5, counterexample: section splitting does not reproduce the input
exactly: sections are stripped, so leading whitespace of `" a"` is lost. -/
theorem C5_split_not_exact :
    (0 : Int) < 5
    ∧ (split_content_by_words (chars (" a")) 5).flatten ≠ chars (" a") := by
  decide

/-- C5, amended: concatenating the sections returned by the splitter
reproduces the input's non-whitespace text exactly and in order, for any
positive words-per-section target — only whitespace trimmed at section
boundaries is dropped. -/
theorem C5_split_coverage_modulo_ws (content : Str) (wps : Int)
    (h : 0 < wps) :
    ((split_content_by_words content wps).flatten).filter (fun c => !isPyWs c)
      = content.filter (fun c => !isPyWs c) :=
  split_content_filter content wps

/-- C5 witness. -/
theorem C5_split_coverage_witness :
    ((split_content_by_words (chars (" a")) 5).flatten).filter
        (fun c => !isPyWs c)
      = (chars (" a")).filter (fun c => !isPyWs c) :=
  C5_split_coverage_modulo_ws (chars (" a")) 5 (by decide)

/-- C6: the unique-selection contract of
`ImageProcessor.select_unique_image`: `none` is returned iff the candidate
list is empty; otherwise the chosen candidate is from the list, its id is
registered on return, it was unused when some candidate was unused, and when
every candidate was used the registry is reset to exactly the chosen id. -/
theorem C6_select_unique_contract (k : Nat) (images : List Image)
    (used : List Str) :
    ((select_unique_image k images used).1 = none ↔ images = [])
    ∧ (∀ img, (select_unique_image k images used).1 = some img →
        img ∈ images
        ∧ img.id ∈ (select_unique_image k images used).2
        ∧ ((∃ j ∈ images, j.id ∉ used) → img.id ∉ used)
        ∧ ((∀ j ∈ images, j.id ∈ used) →
            (select_unique_image k images used).2 = [img.id])) := by
  constructor
  · constructor
    · intro h
      by_contra hne
      obtain ⟨img, hsel⟩ := select_some_of_ne_nil k images used hne
      rw [hsel] at h
      cases h
    · intro h
      subst h
      rfl
  · intro img hsel
    have hne : images ≠ [] := by
      intro h
      subst h
      rw [show (select_unique_image k [] used).1 = none from rfl] at hsel
      cases hsel
    obtain ⟨h1, h2, h3, h4⟩ := select_unique_spec k images used hne img hsel
    exact ⟨h1, h2, fun hex => (h3 hex).1, h4⟩

/-- C6 witness. -/
theorem C6_select_unique_witness :
    img_fix ∈ [img_fix]
    ∧ img_fix.id ∈ (select_unique_image 0 [img_fix] []).2 :=
  let h := (C6_select_unique_contract 0 [img_fix] []).2 img_fix (by decide)
  ⟨h.1, h.2.1⟩

/-- C7, counterexample: with at most one section the assembler does not
return the sanitized content as-is: it returns
`ContentSanitizer.clean_text_content(sanitized)` (image_api.py:524), which
collapses the double space of `x  y`. -/
theorem C7_not_sanitized_as_is :
    pystrip (chars ("x  y")) ≠ []
    ∧ (split_content_by_words
        (sanitize_content dflt_parse (chars ("x  y"))) 100).length ≤ 1
    ∧ (insert_images_in_content dflt_parse id (fun _ => []) (fun _ => none)
        none (fun _ => 0) (chars ("x  y")) 100).1
      ≠ sanitize_content dflt_parse (chars ("x  y")) := by
  decide

/-- C7, amended: for non-blank content yielding at most one section, the
assembler returns `ContentSanitizer.clean_text_content(sanitized)` — the
sanitized content sanitized once more (allowed tags are kept), with runs of
three or more blank-line newlines collapsed to one blank line, space/tab
runs collapsed to a single space, and the result stripped — together with
an empty used-image list; no image is inserted. -/
theorem C7_le_one_section_result (parse : Str → Doc)
    (shuffle : List Str → List Str) (search : Str → List Image)
    (getUrl : Str → Option Str)
    (wp : Option (Str → Str → Option (Option Str))) (picks : Nat → Nat)
    (content : Str) (wpi : Int)
    (h1 : pystrip content ≠ [])
    (h2 : (split_content_by_words
        (sanitize_content parse content) wpi).length ≤ 1) :
    insert_images_in_content parse shuffle search getUrl wp picks content wpi
      = (clean_text_content parse (sanitize_content parse content), []) :=
  insert_images_le_one parse shuffle search getUrl wp picks content wpi h1 h2

/-- C7 witness. -/
theorem C7_le_one_section_witness :
    insert_images_in_content dflt_parse id (fun _ => []) (fun _ => none)
        none (fun _ => 0) (chars ("x  y")) 100
      = (clean_text_content dflt_parse
          (sanitize_content dflt_parse (chars ("x  y"))), []) :=
  C7_le_one_section_result dflt_parse id (fun _ => []) (fun _ => none) none
    (fun _ => 0) (chars ("x  y")) 100 (by decide) (by decide)

/-- C8, counterexample: `HTMLCleaner.clean_html` does not enforce the
claimed per-tag table: a `width` attribute survives on `img` (the tree pass
never runs, and `width` is even allowed by HTMLCleaner's own table). -/
theorem C8_img_width_survives :
    clean_html parse_fix_c8 (chars ("<img src=\"u\" width=\"5\">"))
      = chars ("<img src=\"u\" width=\"5\"/>")
    ∧ ("width" : String) ∉ (["src", "alt", "title"] : List String) := by
  decide

/-- C8, amended: the claimed per-tag attribute table is ContentSanitizer's
table, and `sanitize_content` enforces it: every surviving attribute is in
the per-tag allowed list (in particular `target` on `a` survives).
`HTMLCleaner` declares a different table (`a` without `target`, `img` with
`width`/`height`) and its tree pass does not run. -/
theorem C8_per_tag_attribute_policy :
    cs_allowed_attributes "a" = ["href", "title", "target"]
    ∧ cs_allowed_attributes "img" = ["src", "alt", "title"]
    ∧ cs_allowed_attributes "blockquote" = ["cite"]
    ∧ cs_allowed_attributes "q" = ["cite"]
    ∧ (∀ d : Doc, ∀ p ∈ docElems (csCleanDoc d), ∀ q ∈ p.2,
        q.1 ∈ cs_allowed_attributes p.1)
    ∧ docElems (csCleanDoc [Node.elem ("a") [("target", "_blank")] []])
        = [("a", [("target", "_blank")])]
    ∧ hc_allowed_attributes "a" = ["href", "title"]
    ∧ hc_allowed_attributes "img" = ["src", "alt", "title", "width", "height"] := by
  refine ⟨rfl, rfl, rfl, rfl, csCleanDoc_attr_closure, by decide, rfl, rfl⟩

/-- C8 witness. -/
theorem C8_per_tag_attribute_witness :
    ("target", "_blank").1 ∈ cs_allowed_attributes "a" :=
  C8_per_tag_attribute_policy.2.2.2.2.1
    [Node.elem ("a") [("target", "_blank")] []]
    ("a", [("target", "_blank")]) (by decide)
    ("target", "_blank") (by decide)

/-- C9, counterexample: `ContentSanitizer.sanitize_content` returns
whitespace-only input unchanged, not the empty string. -/
theorem C9_sanitize_content_blank_not_empty :
    sanitize_content dflt_parse (chars (" ")) = chars (" ")
    ∧ chars (" ") ≠ ([] : Str) := by
  decide

/-- C9, amended: on empty or whitespace-only input,
`HTMLCleaner.clean_html` returns the empty string and
`ContentSanitizer.sanitize_content` returns the input unchanged — both
before any parse (the result does not depend on the `parse` argument). -/
theorem C9_blank_input (parse : Str → Doc) (s : Str)
    (h : pystrip s = []) :
    clean_html parse s = [] ∧ sanitize_content parse s = s := by
  constructor
  · unfold clean_html
    rw [if_pos h]
  · unfold sanitize_content
    rw [if_pos h]

/-- C9 witness. -/
theorem C9_blank_input_witness :
    clean_html dflt_parse (chars ("  ")) = []
    ∧ sanitize_content dflt_parse (chars ("  ")) = chars ("  ") :=
  C9_blank_input dflt_parse (chars ("  ")) (by decide)

/-- C10: every string returned by `HTMLCleaner.clean_html` contains no
newline, no two consecutive whitespace characters (all surviving whitespace
is a single space), and no whitespace between adjacent tags (`>` whitespace
`<` never occurs). -/
theorem C10_clean_html_whitespace (parse : Str → Doc) (s : Str) :
    ('\n' ∉ clean_html parse s)
    ∧ noAdjWs (clean_html parse s) = true
    ∧ hasGtWsLt (clean_html parse s) = false
    ∧ (∀ c ∈ clean_html parse s, isPyWs c = true → c = ' ') := by
  unfold clean_html
  by_cases h : pystrip s = []
  · rw [if_pos h]
    refine ⟨by simp, rfl, rfl, by simp⟩
  · rw [if_neg h]
    obtain ⟨h1, h2, h3⟩ := normalize_strip_props
      (remove_data_attributes_regex
        (serializeDoc (hc_clean_element (parse s))))
    refine ⟨?_, h2, h3, h1⟩
    intro hmem
    have := h1 '\n' hmem (by decide)
    cases this

/-- C3: de-duplication of embedded image ids. In a run of the assembler in
which no exhaustion-triggered registry reset occurred (the `resets` trace
field is 0), the list of embedded image ids has no duplicate. The reset
counter is exactly the number of boundaries at which every candidate's id
was already used (image_api.py:445-449), i.e. the pool was exhausted, so
this is the claim's "unless" clause. -/
theorem C3_no_duplicate_embeds (parse : Str → Doc)
    (shuffle : List Str → List Str) (search : Str → List Image)
    (getUrl : Str → Option Str)
    (wp : Option (Str → Str → Option (Option Str))) (picks : Nat → Nat)
    (content : Str) (wpi : Int)
    (h : (insert_images_trace parse shuffle search getUrl wp picks
        content wpi).resets = 0) :
    (insert_images_trace parse shuffle search getUrl wp picks
        content wpi).embedded_ids.Nodup := by
  simp only [insert_images_trace] at h ⊢
  by_cases h1 : pystrip content = []
  · rw [if_pos h1]
    exact List.nodup_nil
  · rw [if_neg h1] at h ⊢
    by_cases h2 : (split_content_by_words (sanitize_content parse content)
        wpi).length ≤ 1
    · rw [if_pos h2]
      exact List.nodup_nil
    · rw [if_neg h2] at h ⊢
      have hinv : AsmInv initAsmState :=
        ⟨List.nodup_nil, by intro id hid; cases hid⟩
      exact (asmLoop_inv search getUrl wp picks _ _ _ 0 initAsmState hinv h).1

/-- C3 witness: a two-section run that embeds one image, with no reset. -/
theorem C3_no_duplicate_embeds_witness :
    (insert_images_trace parse_fix_c4 id (fun _ => [img_fix])
        (fun _ => some (chars ("http://u"))) none (fun _ => 0)
        (chars ("a\n\nb")) 0).resets = 0
    ∧ (insert_images_trace parse_fix_c4 id (fun _ => [img_fix])
        (fun _ => some (chars ("http://u"))) none (fun _ => 0)
        (chars ("a\n\nb")) 0).embedded_ids.Nodup :=
  ⟨by decide,
   C3_no_duplicate_embeds parse_fix_c4 id (fun _ => [img_fix])
     (fun _ => some (chars ("http://u"))) none (fun _ => 0)
     (chars ("a\n\nb")) 0 (by decide)⟩

/-- C4, counterexample: with `words_per_image = 0` the assembler does NOT
treat the content as a single section: `a\n\nb` splits into two sections,
an image is inserted and the used-image list is non-empty. -/
theorem C4_zero_wps_inserts :
    (0 : Int) ≤ 0
    ∧ (insert_images_in_content parse_fix_c4 id (fun _ => [img_fix])
        (fun _ => some (chars ("http://u"))) none (fun _ => 0)
        (chars ("a\n\nb")) 0).2 ≠ [] := by
  decide

/-- C4, amended: the splitter (and hence the assembler, all functions being
total) does not crash on a nonpositive `words_per_section`, but it does not
produce a single section either: the close condition
`count > 0 and count + paragraph_words > wps` (image_api.py:480)
degenerates to `count > 0`, so every nonpositive value behaves exactly like
0 — each non-blank paragraph closes a section of its own, and image
insertion proceeds whenever more than one paragraph results. -/
theorem C4_nonpos_splits_per_paragraph (content : Str) (wps : Int)
    (h : wps ≤ 0) :
    split_content_by_words content wps = split_content_by_words content 0 := by
  unfold split_content_by_words
  exact splitLoop_nonpos wps h _ _ _ _

/-- C4 witness. -/
theorem C4_nonpos_splits_witness :
    (-3 : Int) ≤ 0
    ∧ split_content_by_words (chars ("a\n\nb")) (-3)
        = split_content_by_words (chars ("a\n\nb")) 0 :=
  ⟨by decide, C4_nonpos_splits_per_paragraph (chars ("a\n\nb")) (-3) (by decide)⟩
